import Mathlib

/-!
# MeTTa tokenizer (`extra/cpp/tokenizers/src/metta_tokenizer.cc`)

A shallow embedding of `_tokenize` / `tokenize` and the properties of the
token stream they produce.

Modelling conventions.
* A C++ `string` is a `List Char`; `expression[cursor]` is `charAt`.
* `size_t cursor` and `int target_count` are natural numbers.  Both are
  bounded by the length of the input, so they stay far below the machine
  limits for any string that fits in memory.
* `throw runtime_error("Invalid expression")` is the outcome `thrown`.
* The recursion of `_tokenize` (the `for` loop together with the recursive
  call) is driven by a fuel counter; `tokenize` supplies `2 * size + 1`,
  which is shown to be always enough.
-/

namespace MettaTokenizer

/-- A C++ `std::string`, as its sequence of characters. -/
abbrev Str := List Char

/-- What a call can do: return a value, throw
`runtime_error("Invalid expression")`, or (in the model only) run out of
fuel. -/
inductive Outcome (α : Type) where
  | returned (value : α)
  | thrown
  | out_of_fuel
  deriving DecidableEq, Repr

/-- The call `isspace(ch)` in the "C" locale: space, `\t`, `\n`, `\v`, `\f`, `\r`. -/
def isspace (ch : Char) : Bool :=
  ch == ' ' || ch == '\t' || ch == '\n' || ch == Char.ofNat 11 || ch == Char.ofNat 12
    || ch == '\r'

/-- The expression `expression[cursor]`; `std::string::operator[]` gives the
terminating NUL at `cursor == size()`. -/
def charAt (expression : Str) (cursor : Nat) : Char :=
  expression.getD cursor (Char.ofNat 0)

/-- The call `to_string(target_count)`: the decimal digits of the count. -/
def to_string (target_count : Nat) : Str :=
  Nat.toDigits 10 target_count

/-- The inner `while` loop of `_tokenize` (lines 48-55): while the cursor is
inside the input and on a character that is neither whitespace nor a
parenthesis, append the character to `token` and advance.  Returns the cursor
where the loop stopped and the token.  `steps` bounds the number of
iterations; the caller passes `expression.size() - cursor`. -/
def scan_atom (expression : Str) : Nat → Nat → Str → Nat × Str
  | 0, cursor, token => (cursor, token)
  | steps + 1, cursor, token =>
    if cursor < expression.length
        ∧ ¬ isspace (charAt expression cursor) = true
        ∧ charAt expression cursor ≠ '('
        ∧ charAt expression cursor ≠ ')' then
      scan_atom expression steps (cursor + 1) (token ++ [charAt expression cursor])
    else
      (cursor, token)

/-- The `for` loop of `_tokenize` (lines 29-67) followed by the `throw` of
line 69, as a function of the loop variables `cursor`, `header`,
`target_count` and `output`; `start` is the cursor the call was entered with.
The local `token` is assigned before each of its reads (lines 34 and 47), so
it is not carried between iterations.  The recursive call `_tokenize(expression,
cursor)` of line 34 is this loop entered with `start = cursor` and the initial
values of the locals. -/
def tokenize_loop (expression : Str) :
    Nat → Nat → Nat → Str → Nat → Str → Outcome (Nat × Str)
  | 0, _, _, _, _, _ => .out_of_fuel
  | fuel + 1, start, cursor, header, target_count, output =>
    if cursor < expression.length then
      let ch := charAt expression cursor
      if ch = '(' then
        if cursor > start then
          match tokenize_loop expression fuel cursor cursor "LINK Expression".toList 0 [] with
          | .returned (cursor', token) =>
            tokenize_loop expression fuel start (cursor' + 1) header (target_count + 1)
              (output ++ (" ".toList ++ token))
          | .thrown => .thrown
          | .out_of_fuel => .out_of_fuel
        else
          tokenize_loop expression fuel start (cursor + 1) header target_count output
      else if ch = ')' then
        .returned (cursor, header ++ " ".toList ++ to_string target_count ++ output)
      else if isspace ch = true then
        tokenize_loop expression fuel start (cursor + 1) header target_count output
      else
        let scanned := scan_atom expression (expression.length - cursor) cursor []
        let cursor' := scanned.1 - 1
        let token := scanned.2
        if charAt token 0 = '$' then
          tokenize_loop expression fuel start (cursor' + 1) "LINK_TEMPLATE Expression".toList
            (target_count + 1) (output ++ (" VARIABLE ".toList ++ token.drop 1))
        else
          tokenize_loop expression fuel start (cursor' + 1) header
            (target_count + 1) (output ++ (" NODE Symbol ".toList ++ token))
    else
      .thrown

/-- The function `_tokenize(expression, cursor)`: the loop entered with
`start = cursor`, `header = "LINK Expression"`, `target_count = 0` and an
empty `output`. -/
def _tokenize (fuel : Nat) (expression : Str) (cursor : Nat) : Outcome (Nat × Str) :=
  tokenize_loop expression fuel cursor cursor "LINK Expression".toList 0 []

/-- The function `tokenize(expression)`: calls `_tokenize(expression)` at cursor
0 and returns the token stream, dropping the cursor. -/
def tokenize (expression : Str) : Outcome Str :=
  match _tokenize (2 * expression.length + 1) expression 0 with
  | .returned (_, tokenized_query) => .returned tokenized_query
  | .thrown => .thrown
  | .out_of_fuel => .out_of_fuel

/-- A character that the inner `while` loop consumes: neither whitespace nor
a parenthesis. -/
def isAtomChar (ch : Char) : Bool :=
  !isspace ch && ch != '(' && ch != ')'

/-! ## Well-formed expressions and their serialization

A group is written `'(' element* ')'`.  `Body` is what follows the opening
parenthesis of a group: its children in input order, each with the whitespace
written before it, then the whitespace before the closing parenthesis and the
closing parenthesis itself. -/

/-- The elements of a group after its opening parenthesis.
* `close ws`: no more children; `ws` and then `)`.
* `atom ws text rest`: whitespace `ws`, the atom `text`, then `rest`.
* `group ws inner rest`: whitespace `ws`, the nested group `(` `inner`, then
  `rest`. -/
inductive Body where
  | close (ws : Str)
  | atom (ws : Str) (text : Str) (rest : Body)
  | group (ws : Str) (inner : Body) (rest : Body)
  deriving DecidableEq, Repr

namespace Body

/-- The characters of a group after its opening parenthesis, closing
parenthesis included. -/
def text : Body → Str
  | close ws => ws ++ [')']
  | atom ws t rest => ws ++ (t ++ rest.text)
  | group ws inner rest => ws ++ ('(' :: (inner.text ++ rest.text))

/-- What follows begins with a delimiter whatever its whitespace is: it is
not an atom written with no whitespace before it. -/
def startsDelimited : Body → Bool
  | close _ => true
  | atom ws _ _ => !ws.isEmpty
  | group _ _ _ => true

/-- Well-formedness: whitespace runs hold only whitespace characters, every
atom is a non-empty run of characters that are neither whitespace nor
parentheses, and an atom is not followed directly by another atom. -/
def wellFormed : Body → Bool
  | close ws => ws.all isspace
  | atom ws t rest =>
    ws.all isspace && !t.isEmpty && t.all isAtomChar && rest.startsDelimited && rest.wellFormed
  | group ws inner rest => ws.all isspace && inner.wellFormed && rest.wellFormed

/-- The number of immediate children of the group. -/
def arity : Body → Nat
  | close _ => 0
  | atom _ _ rest => rest.arity + 1
  | group _ _ rest => rest.arity + 1

/-- Whether an immediate child of the group is an atom starting with `$`. -/
def hasDirectVariable : Body → Bool
  | close _ => false
  | atom _ t rest => t.head? == some '$' || rest.hasDirectVariable
  | group _ _ rest => rest.hasDirectVariable

/-- The header word of the group. -/
def headerWord (b : Body) : Str :=
  if b.hasDirectVariable then "LINK_TEMPLATE".toList else "LINK".toList

/-- The serialization of the children of a group, in input order:
`" NODE Symbol <text>"` for a symbol, `" VARIABLE <text without the $>"` for a
variable, and `" "` followed by the serialization of the nested group (its
header word, `" Expression "`, its arity, its children). -/
def children : Body → Str
  | close _ => []
  | atom _ t rest =>
    (if t.head? = some '$' then " VARIABLE ".toList ++ t.drop 1
      else " NODE Symbol ".toList ++ t) ++ rest.children
  | group _ inner rest =>
    (" ".toList ++ (inner.headerWord ++ " Expression ".toList ++ to_string inner.arity
      ++ inner.children)) ++ rest.children

/-- The pre-order serialization of a group: header word, `" Expression "`, the
decimal count of its immediate children, then the children. -/
def serialize (b : Body) : Str :=
  b.headerWord ++ " Expression ".toList ++ to_string b.arity ++ b.children

/-- The text of the expression whose outermost group has body `b`. -/
def expression (b : Body) : Str :=
  '(' :: b.text

end Body

/-- The index in `s` of the first `)` that closes a group opened before `s`,
when `depth` groups opened inside `s` are still open: a `(` opens one more, a
`)` at depth 0 is the answer, a `)` at a positive depth closes one, and every
other character is passed over. -/
def closeIndex : Nat → Str → Option Nat
  | _, [] => none
  | depth, ch :: rest =>
    if ch = '(' then (closeIndex (depth + 1) rest).map (· + 1)
    else if ch = ')' then
      match depth with
      | 0 => some 0
      | d + 1 => (closeIndex d rest).map (· + 1)
    else (closeIndex depth rest).map (· + 1)

/-- The part of the input that the top-level call scans for its closing
parenthesis: the input without its first character when that is `(` (line 33
passes over a `(` at the starting cursor), the whole input otherwise. -/
def scanned (s : Str) : Str :=
  match s with
  | [] => []
  | ch :: rest => if ch = '(' then rest else ch :: rest

/-- Whether the string has two consecutive space characters. -/
def hasDoubleSpace : Str → Bool
  | a :: b :: rest => (a == ' ' && b == ' ') || hasDoubleSpace (b :: rest)
  | _ => false

/-- Whether, from here on, some atom of the input is the single character
`$`: a `$` that stands at the beginning of an atom (`atBoundary`: the
character before it, if any, is whitespace or a parenthesis) and is followed
by whitespace, a parenthesis or the end of the input. -/
def bareDollarFrom : Bool → Str → Bool
  | _, [] => false
  | atBoundary, ch :: rest =>
    (atBoundary && ch == '$' && !isAtomChar (rest.headD ' '))
      || bareDollarFrom (!isAtomChar ch) rest

/-- Whether some atom of the input is the single character `$`. -/
def hasBareDollar (s : Str) : Bool :=
  bareDollarFrom true s

/-- The header after the children of `b` have been scanned, when it was
`header` before. -/
def headerAfter (header : Str) (b : Body) : Str :=
  if b.hasDirectVariable then "LINK_TEMPLATE Expression".toList else header

/-- Scenario 1 of the unit test, as an expression tree:
`(Similarity (Concept "human") $v1)`. -/
def scenario1 : Body :=
  .atom [] "Similarity".toList
    (.group " ".toList
      (.atom [] "Concept".toList (.atom " ".toList "\"human\"".toList (.close [])))
      (.atom " ".toList "$v1".toList (.close [])))

/-- Scenario 2 of the unit test: `(Similarity $v0 (Concept "human") $v1)`. -/
def scenario2 : Body :=
  .atom [] "Similarity".toList
    (.atom " ".toList "$v0".toList
      (.group " ".toList
        (.atom [] "Concept".toList (.atom " ".toList "\"human\"".toList (.close [])))
        (.atom " ".toList "$v1".toList (.close []))))

/-- Scenario 3 of the unit test: `(Similarity (Concept $v0) $v1)`. -/
def scenario3 : Body :=
  .atom [] "Similarity".toList
    (.group " ".toList
      (.atom [] "Concept".toList (.atom " ".toList "$v0".toList (.close [])))
      (.atom " ".toList "$v1".toList (.close [])))

/-- A piece of output that can be appended to: no two consecutive spaces and
no space at its end. -/
def Good (l : Str) : Prop :=
  hasDoubleSpace l = false ∧ l.getLast? ≠ some ' '

/-- The header variable holds one of the two header strings. -/
def HeaderOK (header : Str) : Prop :=
  header = "LINK Expression".toList ∨ header = "LINK_TEMPLATE Expression".toList

/-- The cursor is not in the middle of an atom: if the character before it is
an atom character, the character at it is not. -/
def AtBoundary (pre rest : Str) : Prop :=
  ∀ init d, pre = init ++ [d] → isAtomChar d = true → isAtomChar (rest.headD ' ') = false

/-- The input has a prefix in which the `)` outnumber the `(`, a `(` at
index 0 not being counted. -/
def HasUnmatchedClose (s : Str) : Prop :=
  ∃ j, ((s.take j).drop 1).count '(' < (s.take j).count ')'

/-- The same outcome with the returned cursor moved from an input where the
scan was at cursor `c1` to one where it was at cursor `c2`. -/
def reindex (c1 c2 : Nat) : Outcome (Nat × Str) → Outcome (Nat × Str)
  | .returned (c, out) => .returned (c - c1 + c2, out)
  | .thrown => .thrown
  | .out_of_fuel => .out_of_fuel

/-! ## The second implementation (`extra/cpp/tokenizers/metta_tokenizer.cpp`) -/

/-- The `for` loop of `_parse_query` (metta_tokenizer.cpp, lines 28-66)
followed by the `throw` of line 68.  The inner `while` loop (lines 47-54) is
the same text as in `_tokenize`, so it is `scan_atom`.  The header already
ends with a space, a nested token stream is appended as it is (line 34), an
atom is followed by a space (lines 59 and 62), and the result puts the space
after the count (line 40). -/
def parse_query_loop (query : Str) :
    Nat → Nat → Nat → Str → Nat → Str → Outcome (Nat × Str)
  | 0, _, _, _, _, _ => .out_of_fuel
  | fuel + 1, start, cursor, link_header, target_count, output =>
    if cursor < query.length then
      let ch := charAt query cursor
      if ch = '(' then
        if cursor > start then
          match parse_query_loop query fuel cursor cursor "LINK Expression ".toList 0 [] with
          | .returned (cursor', token) =>
            parse_query_loop query fuel start (cursor' + 1) link_header (target_count + 1)
              (output ++ token)
          | .thrown => .thrown
          | .out_of_fuel => .out_of_fuel
        else
          parse_query_loop query fuel start (cursor + 1) link_header target_count output
      else if ch = ')' then
        .returned (cursor, link_header ++ to_string target_count ++ " ".toList ++ output)
      else if isspace ch = true then
        parse_query_loop query fuel start (cursor + 1) link_header target_count output
      else
        let scanned := scan_atom query (query.length - cursor) cursor []
        let cursor' := scanned.1 - 1
        let token := scanned.2
        if charAt token 0 = '$' then
          parse_query_loop query fuel start (cursor' + 1) "LINK_TEMPLATE Expression ".toList
            (target_count + 1) (output ++ ("VARIABLE ".toList ++ token.drop 1 ++ " ".toList))
        else
          parse_query_loop query fuel start (cursor' + 1) link_header
            (target_count + 1) (output ++ ("NODE Symbol ".toList ++ token ++ " ".toList))
    else
      .thrown

/-- The function `_parse_query(query, cursor)`. -/
def _parse_query (fuel : Nat) (query : Str) (cursor : Nat) : Outcome (Nat × Str) :=
  parse_query_loop query fuel cursor cursor "LINK Expression ".toList 0 []

/-- The function `parse_query(query)`, with the fuel `tokenize` uses. -/
def parse_query (query : Str) : Outcome Str :=
  match _parse_query (2 * query.length + 1) query 0 with
  | .returned (_, tokenized_query) => .returned tokenized_query
  | .thrown => .thrown
  | .out_of_fuel => .out_of_fuel

/-- The outcome with one space appended to a returned token stream. -/
def withSpace : Outcome (Nat × Str) → Outcome (Nat × Str)
  | .returned (c, out) => .returned (c, out ++ " ".toList)
  | .thrown => .thrown
  | .out_of_fuel => .out_of_fuel

/-- The trimming of the unit test (line 9):
`actual.erase(actual.find_last_not_of(' ') + 1)` removes the trailing spaces. -/
def trim_trailing_spaces (actual : Str) : Str :=
  actual.rdropWhile (· == ' ')

/-- The same outcome for an input with one character inserted at index `i`:
a returned cursor at or after `i` moves one further. -/
def bump (i : Nat) : Outcome (Nat × Str) → Outcome (Nat × Str)
  | .returned (c, out) => .returned (if c < i then c else c + 1, out)
  | .thrown => .thrown
  | .out_of_fuel => .out_of_fuel

/-- Inserting a character between `x` and `b` does not split an atom: `b` is
empty, or `x` ends with a character that is whitespace or a parenthesis, or
`b` begins with one. -/
def NoSplit (x b : Str) : Prop :=
  b = [] ∨ (∃ d, x.getLast? = some d ∧ isAtomChar d = false)
    ∨ (∃ d, b.head? = some d ∧ isAtomChar d = false)

/-- The number written by a string of decimal digits, most significant digit
first. -/
def fromDigits (digits : Str) : Nat :=
  digits.foldl (fun acc c => acc * 10 + (c.toNat - 48)) 0

namespace Body

/-- The tree of an expression: the body with all its whitespace erased, so
that two bodies have the same `strip` exactly when they have the same nesting,
the same children in the same order and the same atom texts. -/
def strip : Body → Body
  | close _ => close []
  | atom _ t rest => atom [] t rest.strip
  | group _ inner rest => group [] inner.strip rest.strip

end Body

/-- What follows a word in the output: nothing, or a space. -/
def Delimited (post : Str) : Prop :=
  post = [] ∨ post.head? = some ' '

/-! ## Reading the output by its grammar -/

/-- The next word of the output and what follows its separating space. -/
def nextWord (s : Str) : Str × Str :=
  (s.takeWhile (· != ' '), (s.dropWhile (· != ' ')).drop 1)

/-- Reads `pending` child token groups from the output, by the grammar
`child-token := "NODE" "Symbol" <literal> | "VARIABLE" <name> | group-tokens`,
`group-tokens := ("LINK" | "LINK_TEMPLATE") "Expression" <arity> child-token*`,
a header owning the next `<arity>` child token groups.  Returns the greatest
nesting depth of headers among the children read (0 when none is a group) and
the rest of the output. -/
def readChildren : Nat → Nat → Str → Option (Nat × Str)
  | 0, _, _ => none
  | _ + 1, 0, s => some (0, s)
  | fuel + 1, pending + 1, s =>
    let w := nextWord s
    if w.1 = "NODE".toList then
      if (nextWord w.2).1 = "Symbol".toList then
        readChildren fuel pending (nextWord (nextWord w.2).2).2
      else none
    else if w.1 = "VARIABLE".toList then
      readChildren fuel pending (nextWord w.2).2
    else if w.1 = "LINK".toList ∨ w.1 = "LINK_TEMPLATE".toList then
      if (nextWord w.2).1 = "Expression".toList then
        let a := nextWord (nextWord w.2).2
        match readChildren fuel (fromDigits a.1) a.2 with
        | some (d, s') =>
          match readChildren fuel pending s' with
          | some (d', s'') => some (max (d + 1) d', s'')
          | none => none
        | none => none
      else none
    else none

/-- The nesting depth of the `LINK` / `LINK_TEMPLATE` headers of an output:
the output is read as one group, and must be read to its end. -/
def outputDepth (out : Str) : Option Nat :=
  match readChildren (out.length + 2) 1 out with
  | some (d, []) => some d
  | _ => none

/-- The greatest parenthesis nesting depth reached from here on, `current`
being the depth here and `best` the greatest depth reached so far. -/
def maxDepthFrom : Nat → Nat → Str → Nat
  | _, best, [] => best
  | current, best, ch :: rest =>
    if ch = '(' then maxDepthFrom (current + 1) (max best (current + 1)) rest
    else if ch = ')' then maxDepthFrom (current - 1) best rest
    else maxDepthFrom current best rest

/-- The maximal parenthesis nesting depth of an input. -/
def parenDepth (s : Str) : Nat :=
  maxDepthFrom 0 0 s

namespace Body

/-- The greatest nesting depth of the groups among the children: 0 when no
child is a group. -/
def innerDepth : Body → Nat
  | close _ => 0
  | atom _ _ rest => rest.innerDepth
  | group _ inner rest => max (inner.innerDepth + 1) rest.innerDepth

/-- The number of children at all levels, closings included. -/
def nodes : Body → Nat
  | close _ => 1
  | atom _ _ rest => rest.nodes + 1
  | group _ inner rest => inner.nodes + rest.nodes + 1

end Body

/-! ## Fuel: more fuel never changes a finished run -/

theorem tokenize_loop_zero (expression : Str) (start cursor : Nat) (header : Str)
    (target_count : Nat) (output : Str) :
    tokenize_loop expression 0 start cursor header target_count output = .out_of_fuel := rfl

theorem tokenize_loop_mono (expression : Str) :
    ∀ (fuel fuel' start cursor : Nat) (header : Str) (target_count : Nat) (output : Str)
      (r : Outcome (Nat × Str)),
      tokenize_loop expression fuel start cursor header target_count output = r →
      r ≠ .out_of_fuel → fuel ≤ fuel' →
      tokenize_loop expression fuel' start cursor header target_count output = r := by
  intro fuel
  induction fuel with
  | zero =>
    intro fuel' start cursor header target_count output r h hr _
    rw [tokenize_loop_zero] at h
    exact absurd h.symm hr
  | succ fuel ih =>
    intro fuel' start cursor header target_count output r h hr hle
    obtain ⟨g, rfl⟩ : ∃ g, fuel' = g + 1 := ⟨fuel' - 1, by omega⟩
    have hg : fuel ≤ g := by omega
    rw [tokenize_loop] at h ⊢
    by_cases hc : cursor < expression.length
    · simp only [hc, if_true] at h ⊢
      by_cases h1 : charAt expression cursor = '('
      · simp only [h1, if_true] at h ⊢
        by_cases h2 : cursor > start
        · simp only [h2, if_true] at h ⊢
          cases hin : tokenize_loop expression fuel cursor cursor "LINK Expression".toList 0 [] with
          | returned v =>
            obtain ⟨c', tok⟩ := v
            rw [hin] at h
            rw [ih g cursor cursor _ 0 [] _ hin (by simp) hg]
            exact ih g _ _ _ _ _ _ h hr hg
          | thrown =>
            rw [hin] at h
            rw [ih g cursor cursor _ 0 [] _ hin (by simp) hg]
            exact h
          | out_of_fuel =>
            rw [hin] at h
            exact absurd h.symm hr
        · simp only [h2, if_false] at h ⊢
          exact ih g _ _ _ _ _ _ h hr hg
      · simp only [h1, if_false] at h ⊢
        by_cases h3 : charAt expression cursor = ')'
        · simp only [h3, if_true] at h ⊢
          exact h
        · simp only [h3, if_false] at h ⊢
          by_cases h4 : isspace (charAt expression cursor) = true
          · simp only [h4, if_true] at h ⊢
            exact ih g _ _ _ _ _ _ h hr hg
          · simp only [h4] at h ⊢
            by_cases h5 : charAt (scan_atom expression (expression.length - cursor) cursor []).2 0 = '$'
            · simp only [h5, if_true] at h ⊢
              exact ih g _ _ _ _ _ _ h hr hg
            · simp only [h5, if_false] at h ⊢
              exact ih g _ _ _ _ _ _ h hr hg
    · simp only [hc, if_false] at h ⊢
      exact h

/-! ## The loop, one iteration at a time -/

theorem charAt_append (pre : Str) (ch : Char) (rest : Str) :
    charAt (pre ++ ch :: rest) pre.length = ch := by
  have h : (pre ++ ch :: rest)[pre.length]? = some ch := by
    rw [List.getElem?_append_right (le_refl _)]
    simp
  simp [charAt, List.getD, h]

theorem charAt_zero_cons (ch : Char) (rest : Str) : charAt (ch :: rest) 0 = ch := by
  simp [charAt, List.getD]

theorem scan_atom_append :
    ∀ (rest : Str) (steps : Nat) (token : Str) (pre : Str), rest.length ≤ steps →
      scan_atom (pre ++ rest) steps pre.length token
        = (pre.length + (rest.takeWhile isAtomChar).length,
            token ++ rest.takeWhile isAtomChar) := by
  intro rest
  induction rest with
  | nil =>
    intro steps token pre _
    cases steps with
    | zero => simp [scan_atom]
    | succ n => simp [scan_atom]
  | cons ch rest ih =>
    intro steps token pre hs
    obtain ⟨n, rfl⟩ : ∃ n, steps = n + 1 := ⟨steps - 1, by simp at hs; omega⟩
    rw [scan_atom, charAt_append]
    by_cases hch : isAtomChar ch = true
    · have h' : isspace ch ≠ true ∧ ch ≠ '(' ∧ ch ≠ ')' := by
        simpa [isAtomChar, and_assoc] using hch
      have hlt : pre.length < (pre ++ ch :: rest).length := by simp
      rw [if_pos ⟨hlt, h'.1, h'.2.1, h'.2.2⟩]
      have := ih n (token ++ [ch]) (pre ++ [ch]) (by simp at hs; omega)
      simp only [List.append_assoc, List.singleton_append, List.length_append,
        List.length_singleton] at this
      rw [this, List.takeWhile_cons_of_pos hch]
      simp only [List.length_cons, List.append_assoc, List.singleton_append]
      congr 1
      omega
    · have h' : ¬ (isspace ch ≠ true ∧ ch ≠ '(' ∧ ch ≠ ')') := by
        simpa [isAtomChar, and_assoc] using hch
      rw [if_neg (fun h => h' h.2), List.takeWhile_cons_of_neg hch]
      simp

theorem isAtomChar_iff (ch : Char) :
    isAtomChar ch = true ↔ isspace ch ≠ true ∧ ch ≠ '(' ∧ ch ≠ ')' := by
  simp [isAtomChar, and_assoc]

theorem loop_end {e : Str} {cursor : Nat} (hc : e.length ≤ cursor) (fuel start : Nat)
    (header : Str) (n : Nat) (output : Str) :
    tokenize_loop e (fuel + 1) start cursor header n output = .thrown := by
  rw [tokenize_loop, if_neg (by omega)]

theorem loop_close {e : Str} (pre rest : Str) {cursor : Nat} (he : e = pre ++ ')' :: rest)
    (hc : cursor = pre.length) (fuel start : Nat) (header : Str) (n : Nat) (output : Str) :
    tokenize_loop e (fuel + 1) start cursor header n output
      = .returned (cursor, header ++ " ".toList ++ to_string n ++ output) := by
  subst he hc
  rw [tokenize_loop, if_pos (by simp)]
  simp only [charAt_append, ↓reduceIte, Char.reduceEq]

theorem loop_space {e : Str} (pre rest : Str) {ch : Char} {cursor : Nat} (he : e = pre ++ ch :: rest)
    (hc : cursor = pre.length) (hs : isspace ch = true) (fuel start : Nat) (header : Str)
    (n : Nat) (output : Str) :
    tokenize_loop e (fuel + 1) start cursor header n output
      = tokenize_loop e fuel start (cursor + 1) header n output := by
  subst he hc
  have h1 : ch ≠ '(' := by rintro rfl; exact absurd hs (by decide)
  have h2 : ch ≠ ')' := by rintro rfl; exact absurd hs (by decide)
  rw [tokenize_loop, if_pos (by simp)]
  simp only [charAt_append]
  rw [if_neg h1, if_neg h2, if_pos hs]

theorem loop_open_first {e : Str} (pre rest : Str) {cursor : Nat} (he : e = pre ++ '(' :: rest)
    (hc : cursor = pre.length) (fuel : Nat) {start : Nat} (hstart : cursor ≤ start)
    (header : Str) (n : Nat) (output : Str) :
    tokenize_loop e (fuel + 1) start cursor header n output
      = tokenize_loop e fuel start (cursor + 1) header n output := by
  subst he hc
  rw [tokenize_loop, if_pos (by simp)]
  simp only [charAt_append, ↓reduceIte]
  rw [if_neg (by omega)]

theorem loop_open_nested {e : Str} (pre rest : Str) {cursor : Nat} (he : e = pre ++ '(' :: rest)
    (hc : cursor = pre.length) (fuel : Nat) {start : Nat} (hstart : start < cursor)
    (header : Str) (n : Nat) (output : Str) :
    tokenize_loop e (fuel + 1) start cursor header n output
      = match tokenize_loop e fuel cursor cursor "LINK Expression".toList 0 [] with
        | .returned (cursor', token) =>
          tokenize_loop e fuel start (cursor' + 1) header (n + 1)
            (output ++ (" ".toList ++ token))
        | .thrown => .thrown
        | .out_of_fuel => .out_of_fuel := by
  subst he hc
  rw [tokenize_loop, if_pos (by simp)]
  simp only [charAt_append, ↓reduceIte]
  rw [if_pos hstart]

theorem loop_atom {e : Str} (pre rest : Str) {ch : Char} {cursor : Nat} (he : e = pre ++ ch :: rest)
    (hc : cursor = pre.length) (ha : isAtomChar ch = true) (fuel start : Nat) (header : Str)
    (n : Nat) (output : Str) :
    tokenize_loop e (fuel + 1) start cursor header n output
      = if ch = '$' then
          tokenize_loop e fuel start (cursor + 1 + (rest.takeWhile isAtomChar).length)
            "LINK_TEMPLATE Expression".toList (n + 1)
            (output ++ (" VARIABLE ".toList ++ rest.takeWhile isAtomChar))
        else
          tokenize_loop e fuel start (cursor + 1 + (rest.takeWhile isAtomChar).length)
            header (n + 1)
            (output ++ (" NODE Symbol ".toList ++ ch :: rest.takeWhile isAtomChar)) := by
  subst he hc
  have h' := (isAtomChar_iff ch).1 ha
  rw [tokenize_loop, if_pos (by simp)]
  simp only [charAt_append]
  rw [if_neg h'.2.1, if_neg h'.2.2, if_neg h'.1]
  rw [scan_atom_append (ch :: rest) _ [] pre (by simp)]
  simp only [List.takeWhile_cons_of_pos ha, List.nil_append, List.length_cons,
    charAt_zero_cons, List.drop_succ_cons, List.drop_zero]
  have hcur : pre.length + ((rest.takeWhile isAtomChar).length + 1) - 1 + 1
      = pre.length + 1 + (rest.takeWhile isAtomChar).length := by omega
  rw [hcur]

theorem split_at_cursor {e : Str} {cursor : Nat} (hc : cursor < e.length) :
    ∃ pre ch rest, e = pre ++ ch :: rest ∧ cursor = pre.length := by
  refine ⟨e.take cursor, e[cursor], e.drop (cursor + 1), ?_, ?_⟩
  · rw [List.getElem_cons_drop, List.take_append_drop]
  · rw [List.length_take]; omega

theorem char_cases (ch : Char) :
    ch = '(' ∨ ch = ')' ∨ isspace ch = true ∨ isAtomChar ch = true := by
  by_cases h1 : ch = '('
  · exact Or.inl h1
  · by_cases h2 : ch = ')'
    · exact Or.inr (Or.inl h2)
    · by_cases h3 : isspace ch = true
      · exact Or.inr (Or.inr (Or.inl h3))
      · exact Or.inr (Or.inr (Or.inr ((isAtomChar_iff ch).2 ⟨h3, h1, h2⟩)))

/-! ## The returned cursor -/

theorem loop_cursor (e : Str) :
    ∀ (fuel start cursor : Nat) (header : Str) (n : Nat) (output : Str) (c' : Nat) (out : Str),
      tokenize_loop e fuel start cursor header n output = .returned (c', out) →
      cursor ≤ c' ∧ c' < e.length ∧ charAt e c' = ')' := by
  intro fuel
  induction fuel with
  | zero =>
    intro start cursor header n output c' out h
    rw [tokenize_loop_zero] at h
    cases h
  | succ fuel ih =>
    intro start cursor header n output c' out h
    by_cases hc : cursor < e.length
    · obtain ⟨pre, ch, rest, he, hcur⟩ := split_at_cursor hc
      rcases char_cases ch with rfl | rfl | hs | ha
      · by_cases hst : start < cursor
        · rw [loop_open_nested _ _ he hcur fuel hst] at h
          cases hin : tokenize_loop e fuel cursor cursor "LINK Expression".toList 0 [] with
          | returned v =>
            obtain ⟨c1, tok⟩ := v
            rw [hin] at h
            have h1 := ih _ _ _ _ _ _ _ hin
            have h2 := ih _ _ _ _ _ _ _ h
            exact ⟨by omega, h2.2⟩
          | thrown => rw [hin] at h; cases h
          | out_of_fuel => rw [hin] at h; cases h
        · rw [loop_open_first _ _ he hcur fuel (by omega)] at h
          have h2 := ih _ _ _ _ _ _ _ h
          exact ⟨by omega, h2.2⟩
      · rw [loop_close _ _ he hcur] at h
        cases h
        refine ⟨le_refl _, hc, ?_⟩
        rw [he, hcur, charAt_append]
      · rw [loop_space _ _ he hcur hs] at h
        have h2 := ih _ _ _ _ _ _ _ h
        exact ⟨by omega, h2.2⟩
      · rw [loop_atom _ _ he hcur ha] at h
        split at h
        · have h2 := ih _ _ _ _ _ _ _ h
          exact ⟨by omega, h2.2⟩
        · have h2 := ih _ _ _ _ _ _ _ h
          exact ⟨by omega, h2.2⟩
    · rw [loop_end (by omega)] at h
      cases h

/-! ## Fuel: `2 * size + 1` is always enough -/

theorem loop_adequate (e : Str) :
    ∀ (fuel start cursor : Nat) (header : Str) (n : Nat) (output : Str),
      start ≤ cursor → 1 ≤ fuel → 2 * (e.length - cursor) ≤ fuel →
      (start < cursor → 2 * (e.length - cursor) + 1 ≤ fuel) →
      tokenize_loop e fuel start cursor header n output ≠ .out_of_fuel := by
  intro fuel
  induction fuel with
  | zero =>
    intro start cursor header n output _ h1 _ _
    omega
  | succ fuel ih =>
    intro start cursor header n output hsc _ hf hf'
    by_cases hc : cursor < e.length
    · obtain ⟨pre, ch, rest, he, hcur⟩ := split_at_cursor hc
      rcases char_cases ch with rfl | rfl | hs | ha
      · by_cases hst : start < cursor
        · rw [loop_open_nested _ _ he hcur fuel hst]
          have hf2 := hf' hst
          have hin0 := ih cursor cursor "LINK Expression".toList 0 [] (le_refl _) (by omega)
            (by omega) (by omega)
          cases hin : tokenize_loop e fuel cursor cursor "LINK Expression".toList 0 [] with
          | returned v =>
            obtain ⟨c1, tok⟩ := v
            have h1 := loop_cursor e _ _ _ _ _ _ _ _ hin
            exact ih _ _ _ _ _ (by omega) (by omega) (by omega) (by omega)
          | thrown => simp
          | out_of_fuel => exact absurd hin hin0
        · rw [loop_open_first _ _ he hcur fuel (by omega)]
          exact ih _ _ _ _ _ (by omega) (by omega) (by omega) (by omega)
      · rw [loop_close _ _ he hcur]
        simp
      · rw [loop_space _ _ he hcur hs]
        by_cases hst : start < cursor
        · have := hf' hst
          exact ih _ _ _ _ _ (by omega) (by omega) (by omega) (by omega)
        · exact ih _ _ _ _ _ (by omega) (by omega) (by omega) (by omega)
      · rw [loop_atom _ _ he hcur ha]
        by_cases hst : start < cursor
        · have := hf' hst
          split <;> exact ih _ _ _ _ _ (by omega) (by omega) (by omega) (by omega)
        · split <;> exact ih _ _ _ _ _ (by omega) (by omega) (by omega) (by omega)
    · rw [loop_end (by omega)]
      simp

/-- The fuel `tokenize` passes is enough: any run of `_tokenize` from cursor 0
that finishes with some fuel is the run `tokenize` makes. -/
theorem tokenize_of_run {e : Str} {fuel : Nat} {r : Outcome (Nat × Str)}
    (h : _tokenize fuel e 0 = r) (hr : r ≠ .out_of_fuel) :
    _tokenize (2 * e.length + 1) e 0 = r := by
  unfold _tokenize at h ⊢
  have had := loop_adequate e (2 * e.length + 1) 0 0 "LINK Expression".toList 0 []
    (le_refl _) (by omega) (by omega) (by omega)
  rcases Nat.le_total fuel (2 * e.length + 1) with hle | hle
  · exact tokenize_loop_mono e _ _ _ _ _ _ _ _ h hr hle
  · have := tokenize_loop_mono e _ _ _ _ _ _ _ _ rfl had hle
    rw [← this, h]

theorem tokenize_returned_of_run {e : Str} {fuel c : Nat} {out : Str}
    (h : _tokenize fuel e 0 = .returned (c, out)) : tokenize e = .returned out := by
  unfold tokenize
  rw [tokenize_of_run h (by simp)]

theorem tokenize_thrown_of_run {e : Str} {fuel : Nat}
    (h : _tokenize fuel e 0 = .thrown) : tokenize e = .thrown := by
  unfold tokenize
  rw [tokenize_of_run h (by simp)]

theorem run_of_tokenize_returned {e : Str} {out : Str} (h : tokenize e = .returned out) :
    ∃ c, _tokenize (2 * e.length + 1) e 0 = .returned (c, out) := by
  unfold tokenize at h
  cases hr : _tokenize (2 * e.length + 1) e 0 with
  | returned v =>
    obtain ⟨c, o⟩ := v
    rw [hr] at h
    cases h
    exact ⟨c, rfl⟩
  | thrown => rw [hr] at h; cases h
  | out_of_fuel => rw [hr] at h; cases h

/-! ## Running the loop over a well-formed group -/

theorem loop_skip_spaces :
    ∀ (ws : Str), (∀ c ∈ ws, isspace c = true) →
      ∀ (e pre rest : Str) (cursor fuel start : Nat) (header : Str) (n : Nat) (output : Str),
        e = pre ++ (ws ++ rest) → cursor = pre.length →
        tokenize_loop e (fuel + ws.length) start cursor header n output
          = tokenize_loop e fuel start (cursor + ws.length) header n output := by
  intro ws
  induction ws with
  | nil => intros; rfl
  | cons c ws ih =>
    intro hws e pre rest cursor fuel start header n output he hc
    have hcs : isspace c = true := hws c (List.mem_cons_self _ _)
    have hf : fuel + (c :: ws).length = (fuel + ws.length) + 1 := by simp; omega
    rw [hf, loop_space pre (ws ++ rest) (by simpa using he) hc hcs]
    rw [ih (fun x hx => hws x (List.mem_cons_of_mem _ hx)) e (pre ++ [c]) rest (cursor + 1)
      fuel start header n output (by simp [he]) (by simp [hc])]
    congr 1
    simp only [List.length_cons]
    omega

theorem Body.text_length_pos (b : Body) : 1 ≤ b.text.length := by
  induction b with
  | close ws => simp [Body.text]
  | atom ws t rest ih => simp only [Body.text, List.length_append]; omega
  | group ws inner rest _ ih => simp only [Body.text, List.length_append, List.length_cons]; omega

theorem isAtomChar_of_isspace {c : Char} (h : isspace c = true) : isAtomChar c = false := by
  simp [isAtomChar, h]

theorem Body.text_head_delimiter (b : Body) (hwf : b.wellFormed = true)
    (hd : b.startsDelimited = true) :
    ∃ d tl, b.text = d :: tl ∧ isAtomChar d = false := by
  cases b with
  | close ws =>
    cases ws with
    | nil => exact ⟨')', [], rfl, by decide⟩
    | cons c ws =>
      simp only [Body.wellFormed, List.all_cons, Bool.and_eq_true] at hwf
      exact ⟨c, ws ++ [')'], rfl, isAtomChar_of_isspace hwf.1⟩
  | atom ws t rest =>
    cases ws with
    | nil => simp [Body.startsDelimited] at hd
    | cons c ws =>
      simp only [Body.wellFormed, List.all_cons, Bool.and_eq_true] at hwf
      exact ⟨c, ws ++ (t ++ rest.text), rfl, isAtomChar_of_isspace hwf.1.1.1.1.1⟩
  | group ws inner rest =>
    cases ws with
    | nil => exact ⟨'(', inner.text ++ rest.text, rfl, by decide⟩
    | cons c ws =>
      simp only [Body.wellFormed, List.all_cons, Bool.and_eq_true] at hwf
      exact ⟨c, ws ++ ('(' :: (inner.text ++ rest.text)), rfl, isAtomChar_of_isspace hwf.1.1.1⟩

theorem takeWhile_atom_run (t : Str) (d : Char) (tl : Str)
    (ht : ∀ c ∈ t, isAtomChar c = true) (hd : isAtomChar d = false) :
    (t ++ d :: tl).takeWhile isAtomChar = t := by
  induction t with
  | nil => simp [List.takeWhile_cons, hd]
  | cons c t ih =>
    rw [List.cons_append, List.takeWhile_cons_of_pos (ht c (List.mem_cons_self _ _)),
      ih (fun x hx => ht x (List.mem_cons_of_mem _ hx))]

theorem loop_body (b : Body) :
    b.wellFormed = true →
    ∀ (e pre post : Str) (cursor fuel start : Nat) (header : Str) (n : Nat) (output : Str),
      e = pre ++ (b.text ++ post) → cursor = pre.length → start < cursor →
      2 * b.text.length ≤ fuel →
      tokenize_loop e fuel start cursor header n output
        = .returned (cursor + b.text.length - 1,
            headerAfter header b ++ " ".toList ++ to_string (n + b.arity)
              ++ (output ++ b.children)) := by
  induction b with
  | close ws =>
    intro hwf e pre post cursor fuel start header n output he hc hst hf
    simp only [Body.wellFormed, List.all_eq_true] at hwf
    simp only [Body.text, List.length_append, List.length_singleton] at hf ⊢
    obtain ⟨g, rfl⟩ : ∃ g, fuel = (g + 1) + ws.length := ⟨fuel - 1 - ws.length, by omega⟩
    rw [loop_skip_spaces ws hwf e pre ([')'] ++ post) cursor (g + 1) start header n output
      (by simp [he, Body.text]) hc]
    rw [loop_close (pre ++ ws) post (by simp [he, Body.text])
      (by simp [hc])]
    simp [headerAfter, Body.hasDirectVariable, Body.arity, Body.children]
  | atom ws t rest ih =>
    intro hwf e pre post cursor fuel start header n output he hc hst hf
    simp only [Body.wellFormed, Bool.and_eq_true, List.all_eq_true] at hwf
    obtain ⟨⟨⟨⟨hws, hne⟩, hat⟩, hsd⟩, hwr⟩ := hwf
    obtain ⟨ch, t', rfl⟩ : ∃ ch t', t = ch :: t' := by
      cases t with
      | nil => simp at hne
      | cons ch t' => exact ⟨ch, t', rfl⟩
    obtain ⟨d, tl, hdt, hdd⟩ := Body.text_head_delimiter rest hwr hsd
    have hlen := Body.text_length_pos rest
    simp only [Body.text, List.length_append, List.length_cons] at hf ⊢
    obtain ⟨g, rfl⟩ : ∃ g, fuel = (g + 1) + ws.length := ⟨fuel - 1 - ws.length, by omega⟩
    rw [loop_skip_spaces ws hws e pre (ch :: t' ++ rest.text ++ post) cursor (g + 1) start
      header n output (by simp [he, Body.text]) hc]
    have htw : ((t' ++ rest.text) ++ post).takeWhile isAtomChar = t' := by
      rw [hdt, List.append_assoc, List.cons_append]
      exact takeWhile_atom_run t' d (tl ++ post)
        (fun c hcm => hat c (List.mem_cons_of_mem _ hcm)) hdd
    rw [loop_atom (pre ++ ws) ((t' ++ rest.text) ++ post)
      (by simp [he, Body.text]) (by simp [hc]) (hat ch (List.mem_cons_self _ _)), htw]
    have he' : e = (pre ++ ws ++ ch :: t') ++ (rest.text ++ post) := by
      simp [he, Body.text]
    have hc' : cursor + ws.length + 1 + t'.length = (pre ++ ws ++ ch :: t').length := by
      simp [hc]; omega
    by_cases hv : ch = '$'
    · subst hv
      rw [if_pos rfl, ih hwr e _ post (cursor + ws.length + 1 + t'.length) g start _ _ _ he' hc'
        (by omega) (by omega)]
      simp only [headerAfter, Body.hasDirectVariable, Body.arity, Body.children,
        List.head?_cons, beq_self_eq_true, Bool.true_or, if_true, ite_self,
        List.drop_succ_cons, List.drop_zero, List.append_assoc]
      have h1 : cursor + ws.length + 1 + t'.length + rest.text.length - 1
          = cursor + (ws.length + (t'.length + 1 + rest.text.length)) - 1 := by omega
      have h2 : n + 1 + rest.arity = n + (rest.arity + 1) := by omega
      rw [h1, h2]
    · rw [if_neg hv, ih hwr e _ post (cursor + ws.length + 1 + t'.length) g start _ _ _ he' hc'
        (by omega) (by omega)]
      have hv' : (some ch == some '$') = false := by simpa using hv
      have hv'' : ¬ (some ch = some '$') := by simpa using hv
      simp only [headerAfter, Body.hasDirectVariable, Body.arity, Body.children,
        List.head?_cons, hv', Bool.false_or, hv'', if_false, List.append_assoc]
      have h1 : cursor + ws.length + 1 + t'.length + rest.text.length - 1
          = cursor + (ws.length + (t'.length + 1 + rest.text.length)) - 1 := by omega
      have h2 : n + 1 + rest.arity = n + (rest.arity + 1) := by omega
      rw [h1, h2]
  | group ws inner rest ihi ihr =>
    intro hwf e pre post cursor fuel start header n output he hc hst hf
    simp only [Body.wellFormed, Bool.and_eq_true, List.all_eq_true] at hwf
    obtain ⟨⟨hws, hwi⟩, hwr⟩ := hwf
    have hleni := Body.text_length_pos inner
    have hlenr := Body.text_length_pos rest
    simp only [Body.text, List.length_append, List.length_cons] at hf ⊢
    obtain ⟨g, rfl⟩ : ∃ g, fuel = (g + 1 + 1) + ws.length := ⟨fuel - 2 - ws.length, by omega⟩
    rw [loop_skip_spaces ws hws e pre ('(' :: (inner.text ++ rest.text) ++ post) cursor
      (g + 1 + 1) start header n output (by simp [he, Body.text]) hc]
    have he1 : e = (pre ++ ws) ++ '(' :: ((inner.text ++ rest.text) ++ post) := by
      simp [he, Body.text]
    have hc1 : cursor + ws.length = (pre ++ ws).length := by simp [hc]
    rw [loop_open_nested _ _ he1 hc1 (g + 1) (by omega)]
    rw [loop_open_first _ _ he1 hc1 g (le_refl _)]
    have he2 : e = (pre ++ ws ++ ['(']) ++ (inner.text ++ (rest.text ++ post)) := by
      simp [he, Body.text]
    have hc2 : cursor + ws.length + 1 = (pre ++ ws ++ ['(']).length := by simp [hc]; omega
    rw [ihi hwi e _ (rest.text ++ post) (cursor + ws.length + 1) g (cursor + ws.length) _ _ _
      he2 hc2 (by omega) (by omega)]
    simp only []
    have he3 : e = (pre ++ ws ++ '(' :: inner.text) ++ (rest.text ++ post) := by
      simp [he, Body.text]
    have hc3 : cursor + ws.length + 1 + inner.text.length - 1 + 1
        = (pre ++ ws ++ '(' :: inner.text).length := by
      simp [hc]; omega
    rw [ihr hwr e _ post (cursor + ws.length + 1 + inner.text.length - 1 + 1) (g + 1) start _ _ _
      he3 hc3 (by omega) (by omega)]
    simp only [headerAfter, Body.hasDirectVariable, Body.arity, Body.children, Body.headerWord,
      List.append_assoc, List.nil_append, Nat.zero_add]
    have h1 : cursor + ws.length + 1 + inner.text.length - 1 + 1 + rest.text.length - 1
        = cursor + (ws.length + (inner.text.length + rest.text.length + 1)) - 1 := by omega
    have h2 : n + 1 + rest.arity = n + (rest.arity + 1) := by omega
    rw [h1, h2]
    by_cases hv : inner.hasDirectVariable = true
    · simp [hv]
    · simp [hv]

/-- The call of `_tokenize` at the opening parenthesis of a well-formed group,
anywhere in any input, returns the cursor of the group's closing parenthesis
and the group's serialization. -/
theorem tokenize_group (b : Body) (hwf : b.wellFormed = true) (pre post : Str) (fuel : Nat)
    (hf : 2 * b.text.length + 1 ≤ fuel) :
    _tokenize fuel (pre ++ (b.expression ++ post)) pre.length
      = .returned (pre.length + b.text.length, b.serialize) := by
  obtain ⟨g, rfl⟩ : ∃ g, fuel = g + 1 := ⟨fuel - 1, by omega⟩
  have hlen := Body.text_length_pos b
  unfold _tokenize
  rw [loop_open_first pre (b.text ++ post) (by simp [Body.expression]) rfl g
    (le_refl _)]
  rw [loop_body b hwf _ (pre ++ ['(']) post (pre.length + 1) g pre.length _ _ _
    (by simp [Body.expression]) (by simp) (by omega) (by omega)]
  have h1 : pre.length + 1 + b.text.length - 1 = pre.length + b.text.length := by omega
  rw [h1]
  by_cases hv : b.hasDirectVariable = true
  · simp [headerAfter, Body.serialize, Body.headerWord, hv]
  · simp [headerAfter, Body.serialize, Body.headerWord, hv]

theorem tokenize_expression (b : Body) (hwf : b.wellFormed = true) :
    tokenize b.expression = .returned b.serialize := by
  have h := tokenize_group b hwf [] [] (2 * b.text.length + 1) (le_refl _)
  simp only [List.nil_append, List.append_nil, List.length_nil] at h
  exact tokenize_returned_of_run h

/-! ## The contract on well-formed expressions -/

/-- C1: for every well-formed expression, `tokenize` succeeds and returns
exactly the pre-order serialization of the expression tree: header word
(`LINK_TEMPLATE` if an immediate child is an atom starting with `$`, `LINK`
otherwise), `" Expression "`, the decimal count of immediate children, then
for each child in input order `" NODE Symbol <text>"`, `" VARIABLE <text
without the $>"` or `" "` and the nested group's serialization. -/
theorem tokenize_wellFormed_serialization (b : Body) (hwf : b.wellFormed = true) :
    tokenize b.expression = .returned b.serialize :=
  tokenize_expression b hwf

/-- Witness for C1: Scenario 1 is a well-formed expression, its text is the
test input and the output is the expected string of the test. -/
theorem tokenize_wellFormed_serialization_witness :
    scenario1.wellFormed = true
      ∧ scenario1.expression = "(Similarity (Concept \"human\") $v1)".toList
      ∧ scenario1.serialize = "LINK_TEMPLATE Expression 3 NODE Symbol Similarity LINK Expression 2 NODE Symbol Concept NODE Symbol \"human\" VARIABLE v1".toList
      ∧ tokenize scenario1.expression = .returned scenario1.serialize :=
  ⟨by decide, by decide, by decide, tokenize_wellFormed_serialization scenario1 (by decide)⟩

/-- Scenarios 2 and 3 of the unit test are instances of the same theorem. -/
theorem scenarios_2_3 :
    (scenario2.wellFormed = true
      ∧ scenario2.expression = "(Similarity $v0 (Concept \"human\") $v1)".toList
      ∧ tokenize scenario2.expression = .returned "LINK_TEMPLATE Expression 4 NODE Symbol Similarity VARIABLE v0 LINK Expression 2 NODE Symbol Concept NODE Symbol \"human\" VARIABLE v1".toList)
    ∧ (scenario3.wellFormed = true
      ∧ scenario3.expression = "(Similarity (Concept $v0) $v1)".toList
      ∧ tokenize scenario3.expression = .returned "LINK_TEMPLATE Expression 3 NODE Symbol Similarity LINK_TEMPLATE Expression 2 NODE Symbol Concept VARIABLE v0 VARIABLE v1".toList) := by
  refine ⟨⟨by decide, by decide, ?_⟩, ⟨by decide, by decide, ?_⟩⟩
  · rw [tokenize_expression scenario2 (by decide)]; decide
  · rw [tokenize_expression scenario3 (by decide)]; decide

/-! ## The decimal count -/

theorem digitChar_isDigit : ∀ k, k < 10 → (Nat.digitChar k).isDigit = true := by
  decide

theorem toDigitsCore_isDigit :
    ∀ (fuel n : Nat) (ds : List Char), (∀ c ∈ ds, c.isDigit = true) →
      ∀ c ∈ Nat.toDigitsCore 10 fuel n ds, c.isDigit = true := by
  intro fuel
  induction fuel with
  | zero => intro n ds hds c hc; exact hds c (by simpa [Nat.toDigitsCore] using hc)
  | succ fuel ih =>
    intro n ds hds c hc
    have hcons : ∀ x ∈ Nat.digitChar (n % 10) :: ds, x.isDigit = true := by
      intro x hx
      rcases List.mem_cons.1 hx with rfl | hx
      · exact digitChar_isDigit _ (Nat.mod_lt _ (by decide))
      · exact hds x hx
    rw [Nat.toDigitsCore] at hc
    split at hc
    · exact hcons c hc
    · exact ih _ _ hcons c hc

theorem toDigitsCore_ne_nil :
    ∀ (fuel n : Nat) (ds : List Char), (fuel = 0 → ds ≠ []) →
      Nat.toDigitsCore 10 fuel n ds ≠ [] := by
  intro fuel
  induction fuel with
  | zero => intro n ds h; simpa [Nat.toDigitsCore] using h rfl
  | succ fuel ih =>
    intro n ds _
    rw [Nat.toDigitsCore]
    split
    · simp
    · exact ih _ _ (fun _ => by simp)

theorem to_string_isDigit (n : Nat) : ∀ c ∈ to_string n, c.isDigit = true :=
  toDigitsCore_isDigit _ _ [] (by simp)

theorem to_string_ne_nil (n : Nat) : to_string n ≠ [] :=
  toDigitsCore_ne_nil _ _ [] (by simp)

theorem Body.children_head (b : Body) : b.children = [] ∨ b.children.head? = some ' ' := by
  cases b with
  | close ws => exact Or.inl rfl
  | atom ws t rest =>
    right
    simp only [Body.children]
    split <;> rfl
  | group ws inner rest => exact Or.inr rfl

/-- C2: the call of `_tokenize` for any well-formed group, at any position of
any input (`pre` empty: the outermost group, run by `tokenize`; `pre` non-empty:
a nested group), returns a token stream whose header is `LINK_TEMPLATE` if and
only if an immediate child of the group is an atom starting with `$`, and
`LINK` if and only if none is.  Only immediate children count: neither the
children of nested groups nor the enclosing input have any influence. -/
theorem header_template_iff_direct_variable (b : Body) (hwf : b.wellFormed = true)
    (pre post : Str) (fuel : Nat) (hf : 2 * b.text.length + 1 ≤ fuel) :
    ∃ c out, _tokenize fuel (pre ++ (b.expression ++ post)) pre.length = .returned (c, out)
      ∧ (out.take 25 = "LINK_TEMPLATE Expression ".toList ↔ b.hasDirectVariable = true)
      ∧ (out.take 16 = "LINK Expression ".toList ↔ b.hasDirectVariable = false)
      ∧ (pre = [] → tokenize (b.expression ++ post) = .returned out) := by
  have hrun := tokenize_group b hwf pre post fuel hf
  refine ⟨_, _, hrun, ?_, ?_, ?_⟩
  · cases hv : b.hasDirectVariable with
    | true =>
      simp only [Body.serialize, Body.headerWord, hv, if_true, List.append_assoc, iff_true]
      rfl
    | false =>
      simp only [Body.serialize, Body.headerWord, hv, List.append_assoc, Bool.false_eq_true,
        if_false]
      constructor
      · intro h
        have h4 : ' ' = '_' := congrArg (fun l => l.getD 4 'x') h
        exact absurd h4 (by decide)
      · intro h; cases h
  · cases hv : b.hasDirectVariable with
    | true =>
      simp only [Body.serialize, Body.headerWord, hv, if_true, List.append_assoc]
      constructor
      · intro h
        have h4 : '_' = ' ' := congrArg (fun l => l.getD 4 'x') h
        exact absurd h4 (by decide)
      · intro h; cases h
    | false =>
      simp only [Body.serialize, Body.headerWord, hv, List.append_assoc, iff_true,
        Bool.false_eq_true, if_false]
      rfl
  · rintro rfl
    exact tokenize_returned_of_run hrun

/-- Witness for C2: in `(a ($x))` the outer group has no direct variable and
the nested group has one. -/
theorem header_template_iff_direct_variable_witness :
    ∃ c out, _tokenize 13 ("(a ".toList ++ ((Body.atom [] "$x".toList (.close [])).expression
        ++ ")".toList)) 3 = .returned (c, out)
      ∧ (out.take 25 = "LINK_TEMPLATE Expression ".toList
          ↔ (Body.atom [] "$x".toList (.close [])).hasDirectVariable = true)
      ∧ (out.take 16 = "LINK Expression ".toList
          ↔ (Body.atom [] "$x".toList (.close [])).hasDirectVariable = false)
      ∧ ("(a ".toList = [] → tokenize ((Body.atom [] "$x".toList (.close [])).expression
          ++ ")".toList) = .returned out) :=
  header_template_iff_direct_variable (.atom [] "$x".toList (.close [])) (by decide)
    "(a ".toList ")".toList 13 (by decide)

/-- The header flag is local to its group, on the test's inputs and two more:
a variable in a nested group leaves the enclosing group a `LINK`, and a
variable in the enclosing group leaves the nested group a `LINK`. -/
theorem header_flag_local_examples :
    tokenize "(a ($x))".toList
        = .returned "LINK Expression 2 NODE Symbol a LINK_TEMPLATE Expression 1 VARIABLE x".toList
    ∧ tokenize "($x (a))".toList
        = .returned "LINK_TEMPLATE Expression 2 VARIABLE x LINK Expression 1 NODE Symbol a".toList := by
  constructor <;> decide

/-- C3: the call of `_tokenize` for any well-formed group (outermost or
nested) returns a header whose arity field is the decimal count of the
group's immediate children, an atom and a nested group counting one each:
the output is the header word, `" Expression "`, the digits of the count, and
then either nothing or a space; and `()` yields arity 0. -/
theorem header_arity_is_children_count (b : Body) (hwf : b.wellFormed = true)
    (pre post : Str) (fuel : Nat) (hf : 2 * b.text.length + 1 ≤ fuel) :
    (∃ c word tail, _tokenize fuel (pre ++ (b.expression ++ post)) pre.length
          = .returned (c, word ++ " Expression ".toList ++ to_string b.arity ++ tail)
        ∧ (word = "LINK".toList ∨ word = "LINK_TEMPLATE".toList)
        ∧ (∀ ch ∈ to_string b.arity, ch.isDigit = true) ∧ to_string b.arity ≠ []
        ∧ (tail = [] ∨ tail.head? = some ' ')
        ∧ (pre = [] → tokenize (b.expression ++ post)
            = .returned (word ++ " Expression ".toList ++ to_string b.arity ++ tail)))
    ∧ tokenize "()".toList = .returned "LINK Expression 0".toList := by
  have hrun := tokenize_group b hwf pre post fuel hf
  refine ⟨⟨_, b.headerWord, b.children, hrun, ?_, to_string_isDigit _, to_string_ne_nil _,
    Body.children_head b, ?_⟩, by decide⟩
  · unfold Body.headerWord
    split
    · exact Or.inr rfl
    · exact Or.inl rfl
  · rintro rfl
    exact tokenize_returned_of_run hrun

/-- Witness for C3: the nested group of Scenario 1, `(Concept "human")`, in
its place in the test input. -/
theorem header_arity_is_children_count_witness :
    (∃ c word tail, _tokenize 33 ("(Similarity ".toList
          ++ ((Body.atom [] "Concept".toList
                (.atom " ".toList "\"human\"".toList (.close []))).expression
              ++ " $v1)".toList)) 12
          = .returned (c, word ++ " Expression ".toList ++ to_string 2 ++ tail)
        ∧ (word = "LINK".toList ∨ word = "LINK_TEMPLATE".toList)
        ∧ (∀ ch ∈ to_string 2, ch.isDigit = true) ∧ to_string 2 ≠ []
        ∧ (tail = [] ∨ tail.head? = some ' ')
        ∧ ("(Similarity ".toList = [] → tokenize ((Body.atom [] "Concept".toList
                (.atom " ".toList "\"human\"".toList (.close []))).expression
              ++ " $v1)".toList)
            = .returned (word ++ " Expression ".toList ++ to_string 2 ++ tail)))
    ∧ tokenize "()".toList = .returned "LINK Expression 0".toList :=
  header_arity_is_children_count
    (.atom [] "Concept".toList (.atom " ".toList "\"human\"".toList (.close [])))
    (by decide) "(Similarity ".toList " $v1)".toList 33 (by decide)

/-- C4: an atom starting with `$` yields `VARIABLE <name>` where the name is
the atom text with exactly its first character removed: for every non-empty
run `a` of characters that are neither whitespace nor parentheses and whose
first character is `$`, `tokenize ("(" ++ a ++ ")")` returns
`"LINK_TEMPLATE Expression 1 VARIABLE " ++ a.drop 1`. -/
theorem variable_atom_strips_dollar (a : Str) (hne : a ≠ [])
    (hchars : ∀ c ∈ a, isspace c = false ∧ c ≠ '(' ∧ c ≠ ')')
    (hdollar : a.head? = some '$') :
    tokenize ("(".toList ++ a ++ ")".toList)
      = .returned ("LINK_TEMPLATE Expression 1 VARIABLE ".toList ++ a.drop 1) := by
  have hwf : (Body.atom [] a (.close [])).wellFormed = true := by
    simp only [Body.wellFormed, Body.startsDelimited, List.all_nil, Bool.true_and,
      Bool.and_true, Bool.and_eq_true, List.all_eq_true, Bool.not_eq_true',
      List.isEmpty_eq_false]
    refine ⟨hne, fun c hc => ?_⟩
    obtain ⟨h1, h2, h3⟩ := hchars c hc
    exact (isAtomChar_iff c).2 ⟨by simp [h1], h2, h3⟩
  have h := tokenize_expression _ hwf
  have he : (Body.atom [] a (.close [])).expression = "(".toList ++ a ++ ")".toList := by
    simp [Body.expression, Body.text]
  rw [he] at h
  rw [h]
  simp only [Body.serialize, Body.headerWord, Body.hasDirectVariable, Body.arity,
    Body.children, hdollar, beq_self_eq_true, Bool.true_or, if_true, List.append_nil,
    List.append_assoc]
  rfl

/-- Witness for C4: `$$x` gives the name `$x`. -/
theorem variable_atom_strips_dollar_witness :
    tokenize ("(".toList ++ "$$x".toList ++ ")".toList)
      = .returned ("LINK_TEMPLATE Expression 1 VARIABLE ".toList ++ "$$x".toList.drop 1) :=
  variable_atom_strips_dollar "$$x".toList (by decide) (by decide) (by decide)

/-- C5: an atom that does not start with `$` yields `NODE Symbol <literal>`
with the literal unchanged: for every non-empty run `a` of characters that
are neither whitespace nor parentheses and whose first character is not `$`,
`tokenize ("(" ++ a ++ ")")` returns `"LINK Expression 1 NODE Symbol " ++ a`. -/
theorem symbol_atom_verbatim (a : Str) (hne : a ≠ [])
    (hchars : ∀ c ∈ a, isspace c = false ∧ c ≠ '(' ∧ c ≠ ')')
    (hdollar : a.head? ≠ some '$') :
    tokenize ("(".toList ++ a ++ ")".toList)
      = .returned ("LINK Expression 1 NODE Symbol ".toList ++ a) := by
  have hwf : (Body.atom [] a (.close [])).wellFormed = true := by
    simp only [Body.wellFormed, Body.startsDelimited, List.all_nil, Bool.true_and,
      Bool.and_true, Bool.and_eq_true, List.all_eq_true, Bool.not_eq_true',
      List.isEmpty_eq_false]
    refine ⟨hne, fun c hc => ?_⟩
    obtain ⟨h1, h2, h3⟩ := hchars c hc
    exact (isAtomChar_iff c).2 ⟨by simp [h1], h2, h3⟩
  have h := tokenize_expression _ hwf
  have he : (Body.atom [] a (.close [])).expression = "(".toList ++ a ++ ")".toList := by
    simp [Body.expression, Body.text]
  rw [he] at h
  rw [h]
  have hb : (a.head? == some '$') = false := by simpa using hdollar
  simp only [Body.serialize, Body.headerWord, Body.hasDirectVariable, Body.arity,
    Body.children, hdollar, hb, Bool.or_false, Bool.false_eq_true, if_false, List.append_nil,
    List.append_assoc]
  rfl

/-- Witness for C5: a quoted literal with a `$` inside stays as written. -/
theorem symbol_atom_verbatim_witness :
    tokenize ("(".toList ++ "\"hu$man\"".toList ++ ")".toList)
      = .returned ("LINK Expression 1 NODE Symbol ".toList ++ "\"hu$man\"".toList) :=
  symbol_atom_verbatim "\"hu$man\"".toList (by decide) (by decide) (by decide)

/-! ## Failure and trailing characters -/

/-- C8: an input made only of whitespace characters (space, tab, newline,
vertical tab, form feed, carriage return), the empty string included, makes
`tokenize` throw the invalid-expression error. -/
theorem whitespace_only_throws (s : Str)
    (hs : ∀ c ∈ s, c = ' ' ∨ c = '\t' ∨ c = '\n' ∨ c = Char.ofNat 11 ∨ c = Char.ofNat 12
      ∨ c = '\r') :
    tokenize s = .thrown := by
  have hsp : ∀ c ∈ s, isspace c = true := by
    intro c hc
    rcases hs c hc with h | h | h | h | h | h <;> subst h <;> decide
  have h := loop_skip_spaces s hsp s [] [] 0 1 0 "LINK Expression".toList 0 [] (by simp) rfl
  rw [loop_end (by omega)] at h
  exact tokenize_thrown_of_run h

/-- Witness for C8: the six whitespace characters together, and the empty
string. -/
theorem whitespace_only_throws_witness :
    tokenize [' ', '\t', '\n', Char.ofNat 11, Char.ofNat 12, '\r'] = .thrown
      ∧ tokenize [] = .thrown :=
  ⟨whitespace_only_throws _ (by decide), whitespace_only_throws [] (by decide)⟩

theorem takeWhile_append_or (p : Char → Bool) (l t : Str) :
    l.takeWhile p = l ∨ (l ++ t).takeWhile p = l.takeWhile p := by
  induction l with
  | nil => exact Or.inl rfl
  | cons x l ih =>
    by_cases hx : p x = true
    · rcases ih with h | h
      · left; rw [List.takeWhile_cons_of_pos hx, h]
      · right
        rw [List.cons_append, List.takeWhile_cons_of_pos hx, List.takeWhile_cons_of_pos hx, h]
    · right
      rw [List.cons_append, List.takeWhile_cons_of_neg hx, List.takeWhile_cons_of_neg hx]

theorem loop_extend (s t : Str) :
    ∀ (fuel start cursor : Nat) (header : Str) (n : Nat) (output : Str) (c : Nat) (out : Str),
      tokenize_loop s fuel start cursor header n output = .returned (c, out) →
      tokenize_loop (s ++ t) fuel start cursor header n output = .returned (c, out) := by
  intro fuel
  induction fuel with
  | zero =>
    intro start cursor header n output c out h
    rw [tokenize_loop_zero] at h
    cases h
  | succ fuel ih =>
    intro start cursor header n output c out h
    by_cases hc : cursor < s.length
    · obtain ⟨pre, ch, rest, he, hcur⟩ := split_at_cursor hc
      have he' : s ++ t = pre ++ ch :: (rest ++ t) := by simp [he]
      rcases char_cases ch with rfl | rfl | hs | ha
      · by_cases hst : start < cursor
        · rw [loop_open_nested _ _ he hcur fuel hst] at h
          rw [loop_open_nested _ _ he' hcur fuel hst]
          cases hin : tokenize_loop s fuel cursor cursor "LINK Expression".toList 0 [] with
          | returned v =>
            obtain ⟨c1, tok⟩ := v
            rw [hin] at h
            rw [ih _ _ _ _ _ _ _ hin]
            exact ih _ _ _ _ _ _ _ h
          | thrown => rw [hin] at h; cases h
          | out_of_fuel => rw [hin] at h; cases h
        · rw [loop_open_first _ _ he hcur fuel (by omega)] at h
          rw [loop_open_first _ _ he' hcur fuel (by omega)]
          exact ih _ _ _ _ _ _ _ h
      · rw [loop_close _ _ he hcur] at h
        rw [loop_close _ _ he' hcur]
        exact h
      · rw [loop_space _ _ he hcur hs] at h
        rw [loop_space _ _ he' hcur hs]
        exact ih _ _ _ _ _ _ _ h
      · rw [loop_atom _ _ he hcur ha] at h
        rw [loop_atom _ _ he' hcur ha]
        rcases takeWhile_append_or isAtomChar rest t with hall | hsame
        · exfalso
          rw [hall] at h
          have hlen : s.length = cursor + 1 + rest.length := by simp [he, hcur]; omega
          split at h
          · have := loop_cursor s _ _ _ _ _ _ _ _ h
            omega
          · have := loop_cursor s _ _ _ _ _ _ _ _ h
            omega
        · rw [hsame]
          split
          · rw [if_pos (by assumption)] at h
            exact ih _ _ _ _ _ _ _ h
          · rw [if_neg (by assumption)] at h
            exact ih _ _ _ _ _ _ _ h
    · rw [loop_end (by omega)] at h
      cases h

/-- C9: characters after the top-level closing parenthesis are ignored: if
`tokenize` succeeds on `s`, then for every string `t` it succeeds on
`s ++ t` with the same output. -/
theorem trailing_characters_ignored (s t : Str) (out : Str)
    (h : tokenize s = .returned out) : tokenize (s ++ t) = .returned out := by
  obtain ⟨c, hrun⟩ := run_of_tokenize_returned h
  exact tokenize_returned_of_run (loop_extend s t _ _ _ _ _ _ _ _ hrun)

/-- Witness for C9: `(a)` followed by unbalanced garbage. -/
theorem trailing_characters_ignored_witness :
    tokenize "(a)".toList = .returned "LINK Expression 1 NODE Symbol a".toList
      ∧ tokenize ("(a)".toList ++ ")) $x ((".toList)
          = .returned "LINK Expression 1 NODE Symbol a".toList :=
  ⟨by decide, trailing_characters_ignored "(a)".toList ")) $x ((".toList _ (by decide)⟩

/-! ## Which inputs are accepted: the first unmatched closing parenthesis -/

theorem closeIndex_open (d : Nat) (l : Str) :
    closeIndex d ('(' :: l) = (closeIndex (d + 1) l).map (· + 1) := by
  simp [closeIndex]

theorem closeIndex_close_zero (l : Str) : closeIndex 0 (')' :: l) = some 0 := by
  simp [closeIndex]

theorem closeIndex_close_succ (d : Nat) (l : Str) :
    closeIndex (d + 1) (')' :: l) = (closeIndex d l).map (· + 1) := by
  simp [closeIndex]

theorem closeIndex_other {c : Char} (h1 : c ≠ '(') (h2 : c ≠ ')') (d : Nat) (l : Str) :
    closeIndex d (c :: l) = (closeIndex d l).map (· + 1) := by
  simp [closeIndex, h1, h2]

theorem paren_cases (c : Char) : c = '(' ∨ c = ')' ∨ (c ≠ '(' ∧ c ≠ ')') := by
  by_cases h1 : c = '('
  · exact Or.inl h1
  · by_cases h2 : c = ')'
    · exact Or.inr (Or.inl h2)
    · exact Or.inr (Or.inr ⟨h1, h2⟩)

theorem closeIndex_lt : ∀ (l : Str) (d k : Nat), closeIndex d l = some k → k < l.length := by
  intro l
  induction l with
  | nil => intro d k h; simp [closeIndex] at h
  | cons c l ih =>
    intro d k h
    rcases paren_cases c with rfl | rfl | ⟨h1, h2⟩
    · rw [closeIndex_open] at h
      obtain ⟨j, hj, rfl⟩ := Option.map_eq_some'.1 h
      have := ih _ _ hj
      simp only [List.length_cons]; omega
    · cases d with
      | zero =>
        rw [closeIndex_close_zero] at h
        cases h
        simp
      | succ d =>
        rw [closeIndex_close_succ] at h
        obtain ⟨j, hj, rfl⟩ := Option.map_eq_some'.1 h
        have := ih _ _ hj
        simp only [List.length_cons]; omega
    · rw [closeIndex_other h1 h2] at h
      obtain ⟨j, hj, rfl⟩ := Option.map_eq_some'.1 h
      have := ih _ _ hj
      simp only [List.length_cons]; omega

/-- A `)` at depth `m + d + 1` is found by first finding the one at depth `m`
and then, after it, the one at depth `d`. -/
theorem closeIndex_add : ∀ (l : Str) (m d : Nat),
    closeIndex (m + d + 1) l
      = (closeIndex m l).bind (fun k => (closeIndex d (l.drop (k + 1))).map (· + (k + 1))) := by
  intro l
  induction l with
  | nil => intro m d; simp [closeIndex]
  | cons c l ih =>
    intro m d
    rcases paren_cases c with rfl | rfl | ⟨h1, h2⟩
    · rw [closeIndex_open, closeIndex_open]
      have := ih (m + 1) d
      rw [show m + 1 + d + 1 = m + d + 1 + 1 by omega] at this
      rw [this]
      cases closeIndex (m + 1) l with
      | none => rfl
      | some k =>
        simp only [Option.some_bind, Option.map_some', Option.map_map, List.drop_succ_cons]
        congr 1
    · cases m with
      | zero =>
        rw [closeIndex_close_zero]
        simp only [Nat.zero_add, Option.some_bind, List.drop_succ_cons, List.drop_zero]
        rw [closeIndex_close_succ]
      | succ m =>
        rw [show m + 1 + d + 1 = (m + d + 1) + 1 by omega, closeIndex_close_succ,
          closeIndex_close_succ, ih m d]
        cases closeIndex m l with
        | none => rfl
        | some k =>
          simp only [Option.some_bind, Option.map_some', Option.map_map, List.drop_succ_cons]
          congr 1
    · rw [closeIndex_other h1 h2, closeIndex_other h1 h2, ih m d]
      cases closeIndex m l with
      | none => rfl
      | some k =>
        simp only [Option.some_bind, Option.map_some', Option.map_map, List.drop_succ_cons]
        congr 1

theorem closeIndex_skip : ∀ (t : Str), (∀ c ∈ t, c ≠ '(' ∧ c ≠ ')') → ∀ (d : Nat) (l : Str),
    closeIndex d (t ++ l) = (closeIndex d l).map (· + t.length) := by
  intro t
  induction t with
  | nil => intro _ d l; simp
  | cons c t ih =>
    intro ht d l
    obtain ⟨h1, h2⟩ := ht c (List.mem_cons_self _ _)
    rw [List.cons_append, closeIndex_other h1 h2,
      ih (fun x hx => ht x (List.mem_cons_of_mem _ hx))]
    simp only [Option.map_map, List.length_cons]
    congr 1

theorem closeIndex_append : ∀ (l t : Str) (d k : Nat),
    closeIndex d l = some k → closeIndex d (l ++ t) = some k := by
  intro l
  induction l with
  | nil => intro t d k h; simp [closeIndex] at h
  | cons c l ih =>
    intro t d k h
    rw [List.cons_append]
    rcases paren_cases c with rfl | rfl | ⟨h1, h2⟩
    · rw [closeIndex_open] at h ⊢
      obtain ⟨j, hj, rfl⟩ := Option.map_eq_some'.1 h
      rw [ih t _ _ hj]; rfl
    · cases d with
      | zero =>
        rw [closeIndex_close_zero] at h ⊢
        exact h
      | succ d =>
        rw [closeIndex_close_succ] at h ⊢
        obtain ⟨j, hj, rfl⟩ := Option.map_eq_some'.1 h
        rw [ih t _ _ hj]; rfl
    · rw [closeIndex_other h1 h2] at h ⊢
      obtain ⟨j, hj, rfl⟩ := Option.map_eq_some'.1 h
      rw [ih t _ _ hj]; rfl

theorem atom_run_no_paren (rest : Str) :
    ∀ c ∈ rest.takeWhile isAtomChar, c ≠ '(' ∧ c ≠ ')' := by
  intro c hc
  have := (isAtomChar_iff c).1 (List.mem_takeWhile_imp hc)
  exact this.2

/-- The loop, entered anywhere but on the call's own opening parenthesis,
returns exactly when the rest of the input has an unmatched `)`, with the
cursor on the first one; otherwise it throws. -/
theorem loop_closeIndex (e : Str) :
    ∀ (fuel start cursor : Nat) (header : Str) (n : Nat) (output : Str) (pre rest : Str),
      e = pre ++ rest → cursor = pre.length → start ≤ cursor →
      (start < cursor ∨ rest.head? ≠ some '(') → 2 * rest.length + 1 ≤ fuel →
      (closeIndex 0 rest = none →
          tokenize_loop e fuel start cursor header n output = .thrown)
      ∧ (∀ k, closeIndex 0 rest = some k →
          ∃ out, tokenize_loop e fuel start cursor header n output
            = .returned (cursor + k, out)) := by
  intro fuel
  induction fuel using Nat.strong_induction_on with
  | _ fuel ih =>
    intro start cursor header n output pre rest he hc hsc hhead hf
    obtain ⟨f, rfl⟩ : ∃ f, fuel = f + 1 := ⟨fuel - 1, by omega⟩
    cases rest with
    | nil =>
      refine ⟨fun _ => loop_end (by simp [he, hc]) _ _ _ _ _, fun k hk => ?_⟩
      simp [closeIndex] at hk
    | cons ch r =>
      simp only [List.length_cons] at hf
      rcases char_cases ch with rfl | rfl | hs | ha
      · have hst : start < cursor := by
          rcases hhead with h | h
          · exact h
          · simp at h
        obtain ⟨g, rfl⟩ : ∃ g, f = g + 1 := ⟨f - 1, by omega⟩
        rw [loop_open_nested _ _ he hc (g + 1) hst, loop_open_first _ _ he hc g (le_refl _)]
        rw [closeIndex_open, show (1 : Nat) = 0 + 0 + 1 from rfl, closeIndex_add r 0 0]
        obtain ⟨hin_none, hin_some⟩ := ih g (by omega) cursor (cursor + 1)
          "LINK Expression".toList 0 [] (pre ++ ['(']) r (by simp [he]) (by simp [hc])
          (by omega) (Or.inl (by omega)) (by omega)
        cases hci : closeIndex 0 r with
        | none =>
          rw [hin_none hci]
          simp
        | some k1 =>
          obtain ⟨tok, htok⟩ := hin_some k1 hci
          rw [htok]
          have hk1 := closeIndex_lt _ _ _ hci
          have hsplit : e = (pre ++ '(' :: r.take (k1 + 1)) ++ r.drop (k1 + 1) := by
            simp [he, List.take_append_drop]
          have hcur : cursor + 1 + k1 + 1 = (pre ++ '(' :: r.take (k1 + 1)).length := by
            simp [hc, List.length_take]; omega
          obtain ⟨hout_none, hout_some⟩ := ih (g + 1) (by omega) start (cursor + 1 + k1 + 1)
            header (n + 1) (output ++ (" ".toList ++ tok)) _ (r.drop (k1 + 1)) hsplit hcur
            (by omega) (Or.inl (by omega)) (by simp only [List.length_drop]; omega)
          simp only [Option.some_bind]
          constructor
          · intro hnone
            exact hout_none (by simpa using hnone)
          · intro k hk
            obtain ⟨j, hj, rfl⟩ := Option.map_eq_some'.1 hk
            obtain ⟨j', hj', rfl⟩ := Option.map_eq_some'.1 hj
            obtain ⟨out, hout⟩ := hout_some j' hj'
            exact ⟨out, by rw [hout]; congr 2; omega⟩
      · rw [loop_close _ _ he hc, closeIndex_close_zero]
        refine ⟨fun h => ?_, fun k hk => ?_⟩
        · cases h
        · cases hk
          exact ⟨_, rfl⟩
      · have h1 : ch ≠ '(' := by rintro rfl; exact absurd hs (by decide)
        have h2 : ch ≠ ')' := by rintro rfl; exact absurd hs (by decide)
        rw [loop_space _ _ he hc hs, closeIndex_other h1 h2]
        obtain ⟨hn, hsome⟩ := ih f (by omega) start (cursor + 1) header n output
          (pre ++ [ch]) r (by simp [he]) (by simp [hc]) (by omega) (Or.inl (by omega))
          (by omega)
        constructor
        · intro hnone
          exact hn (by simpa using hnone)
        · intro k hk
          obtain ⟨j, hj, rfl⟩ := Option.map_eq_some'.1 hk
          obtain ⟨out, hout⟩ := hsome j hj
          exact ⟨out, by rw [hout]; congr 2; omega⟩
      · have h' := (isAtomChar_iff ch).1 ha
        rw [loop_atom _ _ he hc ha, closeIndex_other h'.2.1 h'.2.2]
        have hr : r = r.takeWhile isAtomChar ++ r.dropWhile isAtomChar :=
          (List.takeWhile_append_dropWhile _ _).symm
        have hskip := closeIndex_skip _ (atom_run_no_paren r) 0 (r.dropWhile isAtomChar)
        rw [← hr] at hskip
        rw [hskip]
        have hlen := congrArg List.length (List.takeWhile_append_dropWhile isAtomChar r)
        rw [List.length_append] at hlen
        have hsplit : e = (pre ++ ch :: r.takeWhile isAtomChar) ++ r.dropWhile isAtomChar := by
          rw [he, List.append_assoc, List.cons_append, List.takeWhile_append_dropWhile]
        have hcur : cursor + 1 + (r.takeWhile isAtomChar).length
            = (pre ++ ch :: r.takeWhile isAtomChar).length := by
          simp [hc]; omega
        have key : ∀ (hd : Str) (o : Str),
            (((closeIndex 0 (r.dropWhile isAtomChar)).map
                  (· + (r.takeWhile isAtomChar).length)).map (· + 1) = none →
                tokenize_loop e f start (cursor + 1 + (r.takeWhile isAtomChar).length)
                  hd (n + 1) o = .thrown)
            ∧ (∀ k, ((closeIndex 0 (r.dropWhile isAtomChar)).map
                  (· + (r.takeWhile isAtomChar).length)).map (· + 1) = some k →
                ∃ out, tokenize_loop e f start (cursor + 1 + (r.takeWhile isAtomChar).length)
                  hd (n + 1) o = .returned (cursor + k, out)) := by
          intro hd o
          obtain ⟨hn, hsome⟩ := ih f (by omega) start
            (cursor + 1 + (r.takeWhile isAtomChar).length) hd (n + 1) o _
            (r.dropWhile isAtomChar) hsplit hcur (by omega) (Or.inl (by omega)) (by omega)
          constructor
          · intro hnone
            exact hn (by simpa using hnone)
          · intro k hk
            obtain ⟨j, hj, rfl⟩ := Option.map_eq_some'.1 hk
            obtain ⟨j', hj', rfl⟩ := Option.map_eq_some'.1 hj
            obtain ⟨out, hout⟩ := hsome j' hj'
            exact ⟨out, by rw [hout]; congr 2; omega⟩
        split
        · exact key _ _
        · exact key _ _

theorem tokenize_closeIndex (s : Str) :
    (closeIndex 0 (scanned s) = none → tokenize s = .thrown)
    ∧ (∀ k, closeIndex 0 (scanned s) = some k → ∃ out, tokenize s = .returned out) := by
  cases s with
  | nil =>
    refine ⟨fun _ => ?_, fun k hk => ?_⟩
    · have h : _tokenize 1 [] 0 = .thrown := loop_end (by simp) _ _ _ _ _
      exact tokenize_thrown_of_run h
    · simp [scanned, closeIndex] at hk
  | cons ch r =>
    by_cases hch : ch = '('
    · subst hch
      have hsc : scanned ('(' :: r) = r := by simp [scanned]
      rw [hsc]
      obtain ⟨hn, hsome⟩ := loop_closeIndex ('(' :: r) (2 * r.length + 1) 0 1
        "LINK Expression".toList 0 [] ['('] r rfl rfl (by omega) (Or.inl (by omega))
        (le_refl _)
      have hstep : _tokenize (2 * r.length + 1 + 1) ('(' :: r) 0
          = tokenize_loop ('(' :: r) (2 * r.length + 1) 0 1 "LINK Expression".toList 0 [] := by
        unfold _tokenize
        exact loop_open_first [] r rfl rfl _ (le_refl _) _ _ _
      refine ⟨fun h => ?_, fun k hk => ?_⟩
      · exact tokenize_thrown_of_run (hstep.trans (hn h))
      · obtain ⟨out, hout⟩ := hsome k hk
        exact ⟨out, tokenize_returned_of_run (hstep.trans hout)⟩
    · have hsc : scanned (ch :: r) = ch :: r := by simp [scanned, hch]
      rw [hsc]
      obtain ⟨hn, hsome⟩ := loop_closeIndex (ch :: r) (2 * (ch :: r).length + 1) 0 0
        "LINK Expression".toList 0 [] [] (ch :: r) rfl rfl (le_refl _)
        (Or.inr (by simpa using hch)) (le_refl _)
      refine ⟨fun h => ?_, fun k hk => ?_⟩
      · exact tokenize_thrown_of_run (hn h)
      · obtain ⟨out, hout⟩ := hsome k hk
        exact ⟨out, tokenize_returned_of_run hout⟩

theorem isspace_no_paren {ws : Str} (hws : ∀ c ∈ ws, isspace c = true) :
    ∀ c ∈ ws, c ≠ '(' ∧ c ≠ ')' := by
  intro c hc
  have hs := hws c hc
  constructor
  · rintro rfl; exact absurd hs (by decide)
  · rintro rfl; exact absurd hs (by decide)

/-- In the text of a well-formed group body every parenthesis is matched
except the last character, which closes the group. -/
theorem closeIndex_body (b : Body) :
    b.wellFormed = true → ∀ (d : Nat) (post : Str),
      closeIndex d (b.text ++ post)
        = match d with
          | 0 => some (b.text.length - 1)
          | d + 1 => (closeIndex d post).map (· + b.text.length) := by
  induction b with
  | close ws =>
    intro hwf d post
    simp only [Body.wellFormed, List.all_eq_true] at hwf
    simp only [Body.text, List.append_assoc, List.singleton_append, List.length_append,
      List.length_singleton]
    rw [closeIndex_skip ws (isspace_no_paren hwf)]
    cases d with
    | zero => simp [closeIndex_close_zero]
    | succ d =>
      simp only [closeIndex_close_succ, Option.map_map]
      congr 1
      funext x
      simp only [Function.comp_apply]
      omega
  | atom ws t rest ih =>
    intro hwf d post
    simp only [Body.wellFormed, Bool.and_eq_true, List.all_eq_true] at hwf
    obtain ⟨⟨⟨⟨hws, _⟩, hat⟩, _⟩, hwr⟩ := hwf
    have hlen := Body.text_length_pos rest
    have hnp : ∀ c ∈ ws ++ t, c ≠ '(' ∧ c ≠ ')' := by
      intro c hc
      rcases List.mem_append.1 hc with h | h
      · exact isspace_no_paren hws c h
      · exact ((isAtomChar_iff c).1 (hat c h)).2
    have htext : (Body.atom ws t rest).text ++ post = (ws ++ t) ++ (rest.text ++ post) := by
      simp [Body.text]
    rw [htext, closeIndex_skip _ hnp, ih hwr d post]
    simp only [Body.text, List.length_append]
    cases d with
    | zero =>
      simp only [Option.map_some']
      congr 1
      omega
    | succ d =>
      simp only [Option.map_map]
      congr 1
      funext x
      simp only [Function.comp_apply]
      omega
  | group ws inner rest ihi ihr =>
    intro hwf d post
    simp only [Body.wellFormed, Bool.and_eq_true, List.all_eq_true] at hwf
    obtain ⟨⟨hws, hwi⟩, hwr⟩ := hwf
    have hlen := Body.text_length_pos rest
    have htext : (Body.group ws inner rest).text ++ post
        = ws ++ ('(' :: (inner.text ++ (rest.text ++ post))) := by
      simp [Body.text]
    rw [htext, closeIndex_skip _ (isspace_no_paren hws), closeIndex_open,
      ihi hwi (d + 1) (rest.text ++ post)]
    dsimp only
    rw [ihr hwr d post]
    simp only [Body.text, List.length_append, List.length_cons]
    cases d with
    | zero =>
      simp only [Option.map_some']
      congr 1
      omega
    | succ d =>
      simp only [Option.map_map]
      congr 1
      funext x
      simp only [Function.comp_apply]
      omega

/-- C6: input with a missing closing delimiter fails: for every well-formed
expression and every proper prefix `p` of its text (in particular the text
without its final `)`), `tokenize p` throws the invalid-expression error. -/
theorem proper_prefix_throws (b : Body) (hwf : b.wellFormed = true) (p r : Str)
    (hr : r ≠ []) (hp : p ++ r = b.expression) :
    tokenize p = .thrown := by
  cases p with
  | nil => exact (tokenize_closeIndex []).1 rfl
  | cons ch q =>
    simp only [Body.expression, List.cons_append, List.cons.injEq] at hp
    obtain ⟨rfl, hq⟩ := hp
    apply (tokenize_closeIndex ('(' :: q)).1
    have hsc : scanned ('(' :: q) = q := by simp [scanned]
    rw [hsc]
    cases hci : closeIndex 0 q with
    | none => rfl
    | some k =>
      exfalso
      have hlt := closeIndex_lt _ _ _ hci
      have happ := closeIndex_append q r 0 k hci
      have hbody := closeIndex_body b hwf 0 []
      simp only [List.append_nil] at hbody
      rw [hq, hbody] at happ
      have hlen : q.length + r.length = b.text.length := by
        rw [← hq, List.length_append]
      have hrpos : 0 < r.length := List.length_pos.2 hr
      cases happ
      omega

/-- Witness for C6: Scenario 4, the text of Scenario 1 without its final `)`. -/
theorem proper_prefix_throws_witness :
    tokenize "(Similarity (Concept \"human\") $v1".toList = .thrown :=
  proper_prefix_throws scenario1 (by decide) "(Similarity (Concept \"human\") $v1".toList
    ")".toList (by decide) (by decide)

/-! ## Spacing of the output -/

theorem hasDoubleSpace_cons_cons (a b : Char) (l : Str) :
    hasDoubleSpace (a :: b :: l) = ((a == ' ' && b == ' ') || hasDoubleSpace (b :: l)) := rfl

theorem Good_append : ∀ (A B : Str), Good A → Good B → Good (A ++ B) := by
  intro A
  induction A with
  | nil => intro B _ hB; simpa using hB
  | cons a A ih =>
    intro B hA hB
    cases A with
    | nil =>
      have ha : a ≠ ' ' := by
        intro h; exact hA.2 (by simp [h])
      cases B with
      | nil => simpa using hA
      | cons b B =>
        refine ⟨?_, ?_⟩
        · simp only [List.singleton_append, hasDoubleSpace_cons_cons, hB.1, Bool.or_false,
            Bool.and_eq_false_imp, beq_iff_eq]
          intro h; exact absurd h ha
        · have := hB.2
          simpa [List.getLast?_cons_cons] using this
    | cons a' A =>
      have hA' : Good (a' :: A) := by
        refine ⟨?_, ?_⟩
        · have := hA.1
          rw [hasDoubleSpace_cons_cons, Bool.or_eq_false_iff] at this
          exact this.2
        · have := hA.2
          simpa [List.getLast?_cons_cons] using this
      have hrec := ih B hA' hB
      refine ⟨?_, ?_⟩
      · have h1 := hA.1
        rw [hasDoubleSpace_cons_cons, Bool.or_eq_false_iff] at h1
        simp only [List.cons_append, hasDoubleSpace_cons_cons, Bool.or_eq_false_iff]
        exact ⟨h1.1, by simpa using hrec.1⟩
      · have := hrec.2
        simpa [List.getLast?_cons_cons] using this

theorem Good_of_no_space : ∀ (t : Str), (∀ c ∈ t, c ≠ ' ') → Good t := by
  intro t
  induction t with
  | nil => intro _; exact ⟨rfl, by simp⟩
  | cons a t ih =>
    intro h
    have ha : a ≠ ' ' := h a (List.mem_cons_self _ _)
    have ht := ih (fun c hc => h c (List.mem_cons_of_mem _ hc))
    have h1 : Good [a] := ⟨rfl, by simpa using ha⟩
    exact Good_append [a] t h1 ht

theorem Good_space_cons (t : Str) (ht : Good t) (hne : t ≠ []) (hh : t.head? ≠ some ' ') :
    Good (' ' :: t) := by
  cases t with
  | nil => exact absurd rfl hne
  | cons b t =>
    refine ⟨?_, ?_⟩
    · rw [hasDoubleSpace_cons_cons, ht.1]
      have hb : b ≠ ' ' := by simpa using hh
      simp [hb]
    · have := ht.2
      simpa [List.getLast?_cons_cons] using this

theorem isAtomChar_ne_space {c : Char} (h : isAtomChar c = true) : c ≠ ' ' := by
  rintro rfl
  exact absurd h (by decide)

theorem isDigit_ne_space {c : Char} (h : c.isDigit = true) : c ≠ ' ' := by
  rintro rfl
  exact absurd h (by decide)

theorem Good_space_to_string (n : Nat) : Good (' ' :: to_string n) := by
  have hno : ∀ c ∈ to_string n, c ≠ ' ' := fun c hc => isDigit_ne_space (to_string_isDigit n c hc)
  refine Good_space_cons _ (Good_of_no_space _ hno) (to_string_ne_nil n) ?_
  cases h : to_string n with
  | nil => simp
  | cons d ds =>
    have : d ≠ ' ' := hno d (by rw [h]; exact List.mem_cons_self _ _)
    simpa using this

theorem bareDollarFrom_split : ∀ (pre : Str) (bnd : Bool) (post : Str),
    bareDollarFrom bnd (pre ++ '$' :: post) = false →
    (pre = [] → bnd = true) →
    (∀ init d, pre = init ++ [d] → isAtomChar d = false) →
    isAtomChar (post.headD ' ') = true := by
  intro pre
  induction pre with
  | nil =>
    intro bnd post h hb _
    rw [hb rfl] at h
    simp only [List.nil_append, bareDollarFrom, Bool.or_eq_false_iff] at h
    simpa using h.1
  | cons c pre ih =>
    intro bnd post h _ hlast
    simp only [List.cons_append, bareDollarFrom, Bool.or_eq_false_iff] at h
    refine ih (!isAtomChar c) post h.2 ?_ ?_
    · rintro rfl
      have := hlast [] c rfl
      simp [this]
    · intro init d hpre
      exact hlast (c :: init) d (by simp [hpre])

theorem dropWhile_head_not_atom : ∀ (r : Str),
    isAtomChar ((r.dropWhile isAtomChar).headD ' ') = false := by
  intro r
  induction r with
  | nil => decide
  | cons c r ih =>
    by_cases hc : isAtomChar c = true
    · rw [List.dropWhile_cons_of_pos hc]; exact ih
    · rw [List.dropWhile_cons_of_neg hc]
      simpa using hc

theorem append_singleton_last {pre init : Str} {ch d : Char} (h : pre ++ [ch] = init ++ [d]) :
    ch = d := by
  have := congrArg List.getLast? h
  simpa using this

theorem AtBoundary_after_delimiter (pre rest : Str) {ch : Char} (h : isAtomChar ch = false) :
    AtBoundary (pre ++ [ch]) rest := by
  intro init d hpre hd
  rw [append_singleton_last hpre, hd] at h
  cases h

theorem loop_tidy (e : Str) (hno : hasBareDollar e = false) :
    ∀ (fuel start cursor : Nat) (header : Str) (n : Nat) (output : Str) (pre rest : Str)
      (c : Nat) (out : Str),
      e = pre ++ rest → cursor = pre.length → AtBoundary pre rest → HeaderOK header →
      Good output →
      tokenize_loop e fuel start cursor header n output = .returned (c, out) →
      Good out ∧ out.head? = some 'L' := by
  intro fuel
  induction fuel with
  | zero =>
    intro start cursor header n output pre rest c out _ _ _ _ _ h
    rw [tokenize_loop_zero] at h
    cases h
  | succ fuel ih =>
    intro start cursor header n output pre rest c out he hc hb hh ho h
    cases rest with
    | nil =>
      rw [loop_end (by simp [he, hc])] at h
      cases h
    | cons ch r =>
      have he1 : e = (pre ++ [ch]) ++ r := by simp [he]
      have hc1 : cursor + 1 = (pre ++ [ch]).length := by simp [hc]
      rcases char_cases ch with rfl | rfl | hs | ha
      · by_cases hst : start < cursor
        · rw [loop_open_nested _ _ he hc fuel hst] at h
          cases hin : tokenize_loop e fuel cursor cursor "LINK Expression".toList 0 [] with
          | returned v =>
            obtain ⟨c1, tok⟩ := v
            rw [hin] at h
            obtain ⟨htok, htokh⟩ := ih _ _ _ _ _ pre ('(' :: r) _ _ he hc hb (Or.inl rfl)
              (Good_of_no_space [] (by simp)) hin
            obtain ⟨_, hc1lt, hc1ch⟩ := loop_cursor e _ _ _ _ _ _ _ _ hin
            obtain ⟨p1, ch1, r1, he2, hc2⟩ := split_at_cursor hc1lt
            have hch1 : ch1 = ')' := by
              rw [he2, hc2, charAt_append] at hc1ch
              exact hc1ch
            subst hch1
            have hne : tok ≠ [] := by
              intro h0; rw [h0] at htokh; cases htokh
            have hpiece : Good (output ++ (" ".toList ++ tok)) :=
              Good_append _ _ ho (Good_space_cons tok htok hne (by rw [htokh]; decide))
            exact ih _ _ _ _ _ (p1 ++ [')']) r1 _ _ (by simp [he2]) (by simp [hc2])
              (AtBoundary_after_delimiter _ _ (by decide)) hh hpiece h
          | thrown => rw [hin] at h; cases h
          | out_of_fuel => rw [hin] at h; cases h
        · rw [loop_open_first _ _ he hc fuel (by omega)] at h
          exact ih _ _ _ _ _ _ r _ _ he1 hc1 (AtBoundary_after_delimiter _ _ (by decide))
            hh ho h
      · rw [loop_close _ _ he hc] at h
        cases h
        have hhd : Good header := by
          rcases hh with rfl | rfl
          · exact ⟨by decide, by decide⟩
          · exact ⟨by decide, by decide⟩
        refine ⟨?_, ?_⟩
        · have := Good_append _ _ (Good_append _ _ hhd (Good_space_to_string n)) ho
          simpa using this
        · rcases hh with rfl | rfl <;> rfl
      · rw [loop_space _ _ he hc hs] at h
        exact ih _ _ _ _ _ _ r _ _ he1 hc1
          (AtBoundary_after_delimiter _ _ (isAtomChar_of_isspace hs)) hh ho h
      · rw [loop_atom _ _ he hc ha] at h
        have hsplit : e = (pre ++ ch :: r.takeWhile isAtomChar) ++ r.dropWhile isAtomChar := by
          rw [he, List.append_assoc, List.cons_append, List.takeWhile_append_dropWhile]
        have hcur : cursor + 1 + (r.takeWhile isAtomChar).length
            = (pre ++ ch :: r.takeWhile isAtomChar).length := by
          simp [hc]; omega
        have hbnd : AtBoundary (pre ++ ch :: r.takeWhile isAtomChar)
            (r.dropWhile isAtomChar) :=
          fun _ _ _ _ => dropWhile_head_not_atom r
        have htw : ∀ x ∈ r.takeWhile isAtomChar, x ≠ ' ' :=
          fun x hx => isAtomChar_ne_space (List.mem_takeWhile_imp hx)
        split at h
        · rename_i hdollar
          subst hdollar
          have hlast : ∀ init d, pre = init ++ [d] → isAtomChar d = false := by
            intro init d hpre
            cases hd : isAtomChar d with
            | false => rfl
            | true =>
              have := hb init d hpre hd
              simp only [List.headD_cons] at this
              rw [ha] at this
              cases this
          have hnext := bareDollarFrom_split pre true r (by rw [← he]; exact hno)
            (fun _ => rfl) hlast
          have hne : r.takeWhile isAtomChar ≠ [] := by
            cases r with
            | nil => exact absurd hnext (by decide)
            | cons d tl =>
              simp only [List.headD_cons] at hnext
              rw [List.takeWhile_cons_of_pos hnext]
              simp
          have hhead : (r.takeWhile isAtomChar).head? ≠ some ' ' := by
            intro hx
            cases htk : r.takeWhile isAtomChar with
            | nil => exact hne htk
            | cons d tl =>
              rw [htk] at hx
              have hd : d ≠ ' ' := htw d (by rw [htk]; exact List.mem_cons_self _ _)
              simp at hx
              exact hd hx
          have hpiece : Good (output ++ (" VARIABLE ".toList ++ r.takeWhile isAtomChar)) := by
            have h1 : Good (" VARIABLE".toList) := ⟨by decide, by decide⟩
            have h2 := Good_space_cons _ (Good_of_no_space _ htw) hne hhead
            exact Good_append _ _ ho (Good_append " VARIABLE".toList _ h1 h2)
          exact ih _ _ _ _ _ _ _ _ _ hsplit hcur hbnd (Or.inr rfl) hpiece h
        · have hall : ∀ x ∈ ch :: r.takeWhile isAtomChar, x ≠ ' ' := by
            intro x hx
            rcases List.mem_cons.1 hx with rfl | hx
            · exact isAtomChar_ne_space ha
            · exact htw x hx
          have hpiece : Good (output
              ++ (" NODE Symbol ".toList ++ ch :: r.takeWhile isAtomChar)) := by
            have h1 : Good (" NODE Symbol".toList) := ⟨by decide, by decide⟩
            have h2 := Good_space_cons _ (Good_of_no_space _ hall) (by simp)
              (by simpa using isAtomChar_ne_space ha)
            exact Good_append _ _ ho (Good_append " NODE Symbol".toList _ h1 h2)
          exact ih _ _ _ _ _ _ _ _ _ hsplit hcur hbnd hh hpiece h

theorem loop_head (e : Str) :
    ∀ (fuel start cursor : Nat) (header : Str) (n : Nat) (output : Str) (c : Nat) (out : Str),
      HeaderOK header →
      tokenize_loop e fuel start cursor header n output = .returned (c, out) →
      out.head? = some 'L' := by
  intro fuel
  induction fuel with
  | zero =>
    intro start cursor header n output c out _ h
    rw [tokenize_loop_zero] at h
    cases h
  | succ fuel ih =>
    intro start cursor header n output c out hh h
    by_cases hc : cursor < e.length
    · obtain ⟨pre, ch, rest, he, hcur⟩ := split_at_cursor hc
      rcases char_cases ch with rfl | rfl | hs | ha
      · by_cases hst : start < cursor
        · rw [loop_open_nested _ _ he hcur fuel hst] at h
          cases hin : tokenize_loop e fuel cursor cursor "LINK Expression".toList 0 [] with
          | returned v =>
            obtain ⟨c1, tok⟩ := v
            rw [hin] at h
            exact ih _ _ _ _ _ _ _ hh h
          | thrown => rw [hin] at h; cases h
          | out_of_fuel => rw [hin] at h; cases h
        · rw [loop_open_first _ _ he hcur fuel (by omega)] at h
          exact ih _ _ _ _ _ _ _ hh h
      · rw [loop_close _ _ he hcur] at h
        cases h
        rcases hh with rfl | rfl <;> rfl
      · rw [loop_space _ _ he hcur hs] at h
        exact ih _ _ _ _ _ _ _ hh h
      · rw [loop_atom _ _ he hcur ha] at h
        split at h
        · exact ih _ _ _ _ _ _ _ (Or.inr rfl) h
        · exact ih _ _ _ _ _ _ _ hh h
    · rw [loop_end (by omega)] at h
      cases h

/-- C7 (the code accepts input that is no expression): `tokenize` returns a
token stream for `)` and for `a b)`, although no prefix of either begins with
`(`, so no prefix is an expression of the grammar. -/
theorem unopened_input_accepted :
    tokenize ")".toList = .returned "LINK Expression 0".toList
    ∧ tokenize "a b)".toList = .returned "LINK Expression 2 NODE Symbol a NODE Symbol b".toList
    ∧ (∀ (b : Body) (t : Str), b.expression ++ t ≠ ")".toList)
    ∧ (∀ (b : Body) (t : Str), b.expression ++ t ≠ "a b)".toList) := by
  refine ⟨by decide, by decide, ?_, ?_⟩
  · intro b t h
    have := congrArg List.head? h
    simp [Body.expression] at this
  · intro b t h
    have := congrArg List.head? h
    simp [Body.expression] at this

/-- C10 as stated fails: on `($ a)` the output has two consecutive spaces,
after the empty name of the variable `$`. -/
theorem single_spaces_counterexample :
    tokenize "($ a)".toList
        = .returned "LINK_TEMPLATE Expression 2 VARIABLE  NODE Symbol a".toList
    ∧ ¬ ("LINK_TEMPLATE Expression 2 VARIABLE  NODE Symbol a".toList.head? ≠ some ' '
        ∧ hasDoubleSpace "LINK_TEMPLATE Expression 2 VARIABLE  NODE Symbol a".toList = false) := by
  constructor <;> decide

/-- C10, amended: for every input on which `tokenize` succeeds, the output
does not begin with a space; and if no atom of the input is the single
character `$`, the output has no two consecutive spaces. -/
theorem tokens_single_spaced (s out : Str) (h : tokenize s = .returned out) :
    out.head? ≠ some ' ' ∧ (hasBareDollar s = false → hasDoubleSpace out = false) := by
  obtain ⟨c, hrun⟩ := run_of_tokenize_returned h
  constructor
  · rw [loop_head s _ _ _ _ _ _ _ _ (Or.inl rfl) hrun]
    decide
  · intro hno
    exact (loop_tidy s hno _ _ _ _ _ _ [] s _ _ rfl rfl
      (fun init d hpre => by simp at hpre) (Or.inl rfl) (Good_of_no_space [] (by simp))
      hrun).1.1

/-- Witness for amended C10: an input with variables, a nested group, a tab
and a `$` inside an atom. -/
theorem tokens_single_spaced_witness :
    tokenize "(a$ $b\t(c $$)  d)".toList
        = .returned "LINK_TEMPLATE Expression 4 NODE Symbol a$ VARIABLE b LINK_TEMPLATE Expression 2 NODE Symbol c VARIABLE $ NODE Symbol d".toList
    ∧ hasBareDollar "(a$ $b\t(c $$)  d)".toList = false
    ∧ "LINK_TEMPLATE Expression 4 NODE Symbol a$ VARIABLE b LINK_TEMPLATE Expression 2 NODE Symbol c VARIABLE $ NODE Symbol d".toList.head? ≠ some ' '
    ∧ hasDoubleSpace "LINK_TEMPLATE Expression 4 NODE Symbol a$ VARIABLE b LINK_TEMPLATE Expression 2 NODE Symbol c VARIABLE $ NODE Symbol d".toList = false :=
  ⟨by decide, by decide,
    (tokens_single_spaced "(a$ $b\t(c $$)  d)".toList _ (by decide)).1,
    (tokens_single_spaced "(a$ $b\t(c $$)  d)".toList _ (by decide)).2 (by decide)⟩

/-! ## Termination, the atom scan and the returned cursor -/

theorem tokenize_ne_out_of_fuel (e : Str) : tokenize e ≠ .out_of_fuel := by
  have had := loop_adequate e (2 * e.length + 1) 0 0 "LINK Expression".toList 0 []
    (le_refl _) (by omega) (by omega) (by omega)
  unfold tokenize _tokenize
  cases h : tokenize_loop e (2 * e.length + 1) 0 0 "LINK Expression".toList 0 [] with
  | returned v => obtain ⟨c, o⟩ := v; simp
  | thrown => simp
  | out_of_fuel => exact absurd h had

theorem scan_atom_at (e : Str) (cursor : Nat) (hc : cursor < e.length) :
    scan_atom e (e.length - cursor) cursor []
      = (cursor + ((e.drop cursor).takeWhile isAtomChar).length,
          (e.drop cursor).takeWhile isAtomChar) := by
  have h := scan_atom_append (e.drop cursor) (e.length - cursor) [] (e.take cursor)
    (by simp)
  rw [List.take_append_drop] at h
  have hl : (e.take cursor).length = cursor := by rw [List.length_take]; omega
  rw [hl] at h
  simpa using h

/-- C18: `_tokenize` terminates on every input and every starting cursor.
With fuel `2 * (size - cursor) + 1` or more the run finishes (returns or
throws), and its result is the same for every such fuel; a returned cursor is
not smaller than the cursor given; an atom scan entered on an atom character
stops at a strictly greater cursor; a `(` at the call's own starting cursor
makes no recursive call (line 33), so a recursive call is only made at a
cursor greater than the caller's start; and `tokenize` always finishes. -/
theorem tokenize_terminates (e : Str) (cursor fuel : Nat)
    (hf : 2 * (e.length - cursor) + 1 ≤ fuel) :
    _tokenize fuel e cursor ≠ .out_of_fuel
    ∧ _tokenize fuel e cursor = _tokenize (2 * (e.length - cursor) + 1) e cursor
    ∧ (∀ c' out, _tokenize fuel e cursor = .returned (c', out) → cursor ≤ c')
    ∧ (cursor < e.length → isAtomChar (charAt e cursor) = true →
        cursor < (scan_atom e (e.length - cursor) cursor []).1)
    ∧ (∀ start header n output, cursor < e.length → charAt e cursor = '(' → cursor ≤ start →
        tokenize_loop e (fuel + 1) start cursor header n output
          = tokenize_loop e fuel start (cursor + 1) header n output)
    ∧ tokenize e ≠ .out_of_fuel := by
  have hbase := loop_adequate e (2 * (e.length - cursor) + 1) cursor cursor
    "LINK Expression".toList 0 [] (le_refl _) (by omega) (by omega) (by omega)
  have hsame : _tokenize fuel e cursor = _tokenize (2 * (e.length - cursor) + 1) e cursor :=
    tokenize_loop_mono e _ _ _ _ _ _ _ _ rfl hbase hf
  refine ⟨?_, hsame, ?_, ?_, ?_, tokenize_ne_out_of_fuel e⟩
  · rw [hsame]; exact hbase
  · intro c' out h
    exact (loop_cursor e _ _ _ _ _ _ _ _ h).1
  · intro hc ha
    rw [scan_atom_at e cursor hc]
    obtain ⟨pre, ch, rest, he, hcur⟩ := split_at_cursor hc
    have hch : charAt e cursor = ch := by rw [he, hcur, charAt_append]
    rw [hch] at ha
    have hd : e.drop cursor = ch :: rest := by
      rw [he, hcur, List.drop_left]
    rw [hd, List.takeWhile_cons_of_pos ha]
    simp
  · intro start header n output hc hch hst
    obtain ⟨pre, ch, rest, he, hcur⟩ := split_at_cursor hc
    have hch' : ch = '(' := by rw [he, hcur, charAt_append] at hch; exact hch
    subst hch'
    exact loop_open_first pre rest he hcur fuel hst header n output

/-- Witness for C18: the test input from cursor 0 with the fuel `tokenize`
passes. -/
theorem tokenize_terminates_witness :
    _tokenize 71 scenario1.expression 0 ≠ .out_of_fuel
    ∧ _tokenize 71 scenario1.expression 0
        = _tokenize (2 * (scenario1.expression.length - 0) + 1) scenario1.expression 0
    ∧ (∀ c' out, _tokenize 71 scenario1.expression 0 = .returned (c', out) → 0 ≤ c')
    ∧ (0 < scenario1.expression.length → isAtomChar (charAt scenario1.expression 0) = true →
        0 < (scan_atom scenario1.expression (scenario1.expression.length - 0) 0 []).1)
    ∧ (∀ start header n output, 0 < scenario1.expression.length →
        charAt scenario1.expression 0 = '(' → 0 ≤ start →
        tokenize_loop scenario1.expression (71 + 1) start 0 header n output
          = tokenize_loop scenario1.expression 71 start (0 + 1) header n output)
    ∧ tokenize scenario1.expression ≠ .out_of_fuel :=
  tokenize_terminates scenario1.expression 0 71 (by decide)

/-- C19: whenever the atom branch is taken (the cursor is inside the input on
a character that is neither whitespace nor a parenthesis), the scanned token
has at least one character, holds no whitespace and no parenthesis, begins
with the character at the cursor (so `token[0]` is in bounds), is the run of
the input from the cursor up to where the scan stopped, and the scan stops at
a cursor at least one past the atom's first character and inside or at the
end of the input, so that the decrement `--cursor` neither underflows nor
moves before the atom's first character. -/
theorem atom_nonempty_delimiter_free (e : Str) (cursor : Nat) (hc : cursor < e.length)
    (ha : ¬ isspace (charAt e cursor) = true ∧ charAt e cursor ≠ '(' ∧ charAt e cursor ≠ ')') :
    ∃ c' token, scan_atom e (e.length - cursor) cursor [] = (c', token)
      ∧ token ≠ [] ∧ 0 < token.length
      ∧ (∀ ch ∈ token, isspace ch = false ∧ ch ≠ '(' ∧ ch ≠ ')')
      ∧ charAt token 0 = charAt e cursor
      ∧ c' = cursor + token.length
      ∧ token = (e.drop cursor).take token.length
      ∧ 1 ≤ c' ∧ cursor ≤ c' - 1 ∧ c' ≤ e.length := by
  obtain ⟨pre, ch, rest, he, hcur⟩ := split_at_cursor hc
  have hch : charAt e cursor = ch := by rw [he, hcur, charAt_append]
  rw [hch] at ha
  have hat : isAtomChar ch = true := (isAtomChar_iff ch).2 ha
  have hd : e.drop cursor = ch :: rest := by rw [he, hcur, List.drop_left]
  have htw : (e.drop cursor).takeWhile isAtomChar = ch :: rest.takeWhile isAtomChar := by
    rw [hd, List.takeWhile_cons_of_pos hat]
  have hlen : (rest.takeWhile isAtomChar).length ≤ rest.length :=
    (List.takeWhile_sublist _).length_le
  have helen : e.length = cursor + 1 + rest.length := by
    rw [he, hcur]; simp; omega
  refine ⟨_, _, scan_atom_at e cursor hc, ?_, ?_, ?_, ?_, rfl, ?_, ?_, ?_, ?_⟩
  · rw [htw]; simp
  · rw [htw]; simp
  · intro x hx
    have hx' := (isAtomChar_iff x).1 (List.mem_takeWhile_imp hx)
    exact ⟨by simpa using hx'.1, hx'.2⟩
  · rw [htw, charAt_zero_cons, hch]
  · have hp : (e.drop cursor).takeWhile isAtomChar <+: e.drop cursor :=
      List.takeWhile_prefix _
    exact (List.prefix_iff_eq_take.1 hp)
  · rw [htw]; simp only [List.length_cons]; omega
  · rw [htw]; simp only [List.length_cons]; omega
  · rw [htw]; simp only [List.length_cons]; omega

/-- Witness for C19: the atom `Similarity` of the test input, scanned from
cursor 1. -/
theorem atom_nonempty_delimiter_free_witness :
    ∃ c' token, scan_atom scenario1.expression (scenario1.expression.length - 1) 1 []
        = (c', token)
      ∧ token ≠ [] ∧ 0 < token.length
      ∧ (∀ ch ∈ token, isspace ch = false ∧ ch ≠ '(' ∧ ch ≠ ')')
      ∧ charAt token 0 = charAt scenario1.expression 1
      ∧ c' = 1 + token.length
      ∧ token = (scenario1.expression.drop 1).take token.length
      ∧ 1 ≤ c' ∧ 1 ≤ c' - 1 ∧ c' ≤ scenario1.expression.length :=
  atom_nonempty_delimiter_free scenario1.expression 1 (by decide) (by decide)

/-! ## Counting parentheses -/

theorem count_open_cons_open (l : Str) : ('(' :: l).count '(' = l.count '(' + 1 := by simp

theorem count_close_cons_open (l : Str) : ('(' :: l).count ')' = l.count ')' := by simp

theorem count_open_cons_close (l : Str) : (')' :: l).count '(' = l.count '(' := by simp

theorem count_close_cons_close (l : Str) : (')' :: l).count ')' = l.count ')' + 1 := by simp

theorem count_open_cons_other {c : Char} (h : c ≠ '(') (l : Str) :
    (c :: l).count '(' = l.count '(' := by
  simp [List.count_cons, h]

theorem count_close_cons_other {c : Char} (h : c ≠ ')') (l : Str) :
    (c :: l).count ')' = l.count ')' := by
  simp [List.count_cons, h]

theorem closeIndex_spec : ∀ (l : Str) (d k : Nat), closeIndex d l = some k →
    l[k]? = some ')'
    ∧ (l.take k).count ')' = d + (l.take k).count '('
    ∧ (∀ j, j ≤ k → (l.take j).count ')' ≤ d + (l.take j).count '(')
    ∧ (l.take (k + 1)).count ')' = d + 1 + (l.take (k + 1)).count '(' := by
  intro l
  induction l with
  | nil => intro d k h; simp [closeIndex] at h
  | cons c l ih =>
    intro d k h
    rcases paren_cases c with rfl | rfl | ⟨h1, h2⟩
    · rw [closeIndex_open] at h
      obtain ⟨k', hk', rfl⟩ := Option.map_eq_some'.1 h
      obtain ⟨a1, a2, a3, a4⟩ := ih _ _ hk'
      refine ⟨by simpa using a1, ?_, ?_, ?_⟩
      · simp only [List.take_succ_cons]
        rw [count_close_cons_open, count_open_cons_open]
        omega
      · intro j hj
        cases j with
        | zero => simp
        | succ j =>
          have := a3 j (by omega)
          simp only [List.take_succ_cons]
          rw [count_close_cons_open, count_open_cons_open]
          omega
      · simp only [List.take_succ_cons]
        rw [count_close_cons_open, count_open_cons_open]
        omega
    · cases d with
      | zero =>
        rw [closeIndex_close_zero] at h
        cases h
        refine ⟨by simp, by simp, ?_, by simp⟩
        intro j hj
        have : j = 0 := by omega
        subst this
        simp
      | succ d =>
        rw [closeIndex_close_succ] at h
        obtain ⟨k', hk', rfl⟩ := Option.map_eq_some'.1 h
        obtain ⟨a1, a2, a3, a4⟩ := ih _ _ hk'
        refine ⟨by simpa using a1, ?_, ?_, ?_⟩
        · simp only [List.take_succ_cons]
          rw [count_close_cons_close, count_open_cons_close]
          omega
        · intro j hj
          cases j with
          | zero => simp
          | succ j =>
            have := a3 j (by omega)
            simp only [List.take_succ_cons]
            rw [count_close_cons_close, count_open_cons_close]
            omega
        · simp only [List.take_succ_cons]
          rw [count_close_cons_close, count_open_cons_close]
          omega
    · rw [closeIndex_other h1 h2] at h
      obtain ⟨k', hk', rfl⟩ := Option.map_eq_some'.1 h
      obtain ⟨a1, a2, a3, a4⟩ := ih _ _ hk'
      refine ⟨by simpa using a1, ?_, ?_, ?_⟩
      · simp only [List.take_succ_cons]
        rw [count_close_cons_other h2, count_open_cons_other h1]
        exact a2
      · intro j hj
        cases j with
        | zero => simp
        | succ j =>
          have := a3 j (by omega)
          simp only [List.take_succ_cons]
          rw [count_close_cons_other h2, count_open_cons_other h1]
          exact this
      · simp only [List.take_succ_cons]
        rw [count_close_cons_other h2, count_open_cons_other h1]
        exact a4

theorem closeIndex_of_count : ∀ (l : Str) (d j : Nat),
    d + (l.take j).count '(' < (l.take j).count ')' → ∃ k, closeIndex d l = some k := by
  intro l
  induction l with
  | nil => intro d j h; simp at h
  | cons c l ih =>
    intro d j h
    cases j with
    | zero => simp at h
    | succ j =>
      simp only [List.take_succ_cons] at h
      rcases paren_cases c with rfl | rfl | ⟨h1, h2⟩
      · rw [count_close_cons_open, count_open_cons_open] at h
        obtain ⟨k, hk⟩ := ih (d + 1) j (by omega)
        exact ⟨k + 1, by rw [closeIndex_open, hk]; rfl⟩
      · rw [count_close_cons_close, count_open_cons_close] at h
        cases d with
        | zero => exact ⟨0, closeIndex_close_zero l⟩
        | succ d =>
          obtain ⟨k, hk⟩ := ih d j (by omega)
          exact ⟨k + 1, by rw [closeIndex_close_succ, hk]; rfl⟩
      · rw [count_close_cons_other h2, count_open_cons_other h1] at h
        obtain ⟨k, hk⟩ := ih d j h
        exact ⟨k + 1, by rw [closeIndex_other h1 h2, hk]; rfl⟩

theorem closeIndex_iff_count (l : Str) (d : Nat) :
    (∃ k, closeIndex d l = some k)
      ↔ ∃ j, d + (l.take j).count '(' < (l.take j).count ')' := by
  constructor
  · rintro ⟨k, hk⟩
    obtain ⟨_, _, _, a4⟩ := closeIndex_spec l d k hk
    exact ⟨k + 1, by omega⟩
  · rintro ⟨j, hj⟩
    exact closeIndex_of_count l d j hj

/-- C20: if `_tokenize(s, c)` returns `(c', out)` then `c ≤ c' < |s|` and
`s[c']` is `)`; and when `s[c]` is `(`, the returned `c'` is the position of
the `)` matching it: the substring `s[c..c']` has as many `(` as `)`, and
every non-empty proper prefix of it has strictly more `(` than `)`, so none
of them is balanced. -/
theorem tokenize_cursor_postcondition (s : Str) (c fuel c' : Nat) (out : Str)
    (h : _tokenize fuel s c = .returned (c', out)) :
    c ≤ c' ∧ c' < s.length ∧ charAt s c' = ')'
    ∧ (charAt s c = '(' →
        ((s.drop c).take (c' - c + 1)).count '(' = ((s.drop c).take (c' - c + 1)).count ')'
        ∧ ∀ j, 0 < j → j < c' - c + 1 →
            ((s.drop c).take j).count ')' < ((s.drop c).take j).count '(') := by
  have hcur := loop_cursor s _ _ _ _ _ _ _ _ h
  refine ⟨hcur.1, hcur.2.1, hcur.2.2, ?_⟩
  intro hopen
  have hc : c < s.length := by omega
  obtain ⟨pre, ch, r, he, hpre⟩ := split_at_cursor hc
  have hch : ch = '(' := by rw [he, hpre, charAt_append] at hopen; exact hopen
  subst hch
  obtain ⟨f, rfl⟩ : ∃ f, fuel = f + 1 := by
    cases fuel with
    | zero => exact absurd h (by simp [_tokenize, tokenize_loop])
    | succ f => exact ⟨f, rfl⟩
  unfold _tokenize at h
  rw [loop_open_first pre r he hpre f (le_refl _)] at h
  have hbig := tokenize_loop_mono s f (max f (2 * r.length + 1)) _ _ _ _ _ _ h (by simp)
    (le_max_left _ _)
  obtain ⟨hnone, hsome⟩ := loop_closeIndex s (max f (2 * r.length + 1)) c (c + 1)
    "LINK Expression".toList 0 [] (pre ++ ['(']) r (by simp [he]) (by simp [hpre])
    (by omega) (Or.inl (by omega)) (le_max_right _ _)
  cases hci : closeIndex 0 r with
  | none =>
    rw [hnone hci] at hbig
    cases hbig
  | some k =>
    obtain ⟨out', hout'⟩ := hsome k hci
    rw [hout'] at hbig
    have hc' : c' = c + 1 + k := by
      have := congrArg (fun o => match o with
        | Outcome.returned v => v.1
        | _ => 0) hbig
      simpa using this.symm
    obtain ⟨_, _, a3, a4⟩ := closeIndex_spec r 0 k hci
    have hd : s.drop c = '(' :: r := by rw [he, hpre, List.drop_left]
    have hlen : c' - c + 1 = k + 1 + 1 := by omega
    rw [hd, hlen]
    constructor
    · simp only [List.take_succ_cons]
      rw [count_open_cons_open, count_close_cons_open]
      omega
    · intro j hj0 hj
      obtain ⟨j', rfl⟩ : ∃ j', j = j' + 1 := ⟨j - 1, by omega⟩
      have := a3 j' (by omega)
      simp only [List.take_succ_cons]
      rw [count_open_cons_open, count_close_cons_open]
      omega

/-- Witness for C20: the call for the nested group of the test input,
entered at cursor 12, returns at cursor 28. -/
theorem tokenize_cursor_postcondition_witness :
    _tokenize 40 scenario1.expression 12
        = .returned (28, "LINK Expression 2 NODE Symbol Concept NODE Symbol \"human\"".toList)
    ∧ 12 ≤ 28 ∧ 28 < scenario1.expression.length ∧ charAt scenario1.expression 28 = ')'
    ∧ (charAt scenario1.expression 12 = '(' →
        ((scenario1.expression.drop 12).take (28 - 12 + 1)).count '('
          = ((scenario1.expression.drop 12).take (28 - 12 + 1)).count ')'
        ∧ ∀ j, 0 < j → j < 28 - 12 + 1 →
            ((scenario1.expression.drop 12).take j).count ')'
              < ((scenario1.expression.drop 12).take j).count '(') :=
  ⟨by decide, tokenize_cursor_postcondition scenario1.expression 12 40 28
    "LINK Expression 2 NODE Symbol Concept NODE Symbol \"human\"".toList (by decide)⟩

/-- C14: the opening `(` is the group's own boundary only at the very first
character examined: for every well-formed expression and every non-empty
string `w` of whitespace characters, `tokenize (w ++ expression)` throws the
invalid-expression error. -/
theorem leading_whitespace_throws (b : Body) (hwf : b.wellFormed = true) (w : Str)
    (hne : w ≠ []) (hw : ∀ c ∈ w, isspace c = true) :
    tokenize (w ++ b.expression) = .thrown := by
  apply (tokenize_closeIndex (w ++ b.expression)).1
  have hsc : scanned (w ++ b.expression) = w ++ b.expression := by
    cases w with
    | nil => exact absurd rfl hne
    | cons c w' =>
      have hc : c ≠ '(' := (isspace_no_paren hw c (List.mem_cons_self _ _)).1
      simp [scanned, hc]
  rw [hsc, closeIndex_skip w (isspace_no_paren hw), Body.expression, closeIndex_open]
  have hbody := closeIndex_body b hwf 1 []
  simp only [List.append_nil] at hbody
  rw [hbody]
  simp [closeIndex]

/-- Witness for C14: one space before the test input. -/
theorem leading_whitespace_throws_witness :
    tokenize (" ".toList ++ scenario1.expression) = .thrown :=
  leading_whitespace_throws scenario1 (by decide) " ".toList (by decide) (by decide)

theorem count_take_drop_one (c : Char) (r : Str) (j : Nat) :
    ((c :: r).take (j + 1)).drop 1 = r.take j := by
  simp

theorem hasUnmatchedClose_iff (s : Str) :
    HasUnmatchedClose s ↔ ∃ k, closeIndex 0 (scanned s) = some k := by
  unfold HasUnmatchedClose
  cases s with
  | nil => simp [scanned, closeIndex]
  | cons c r =>
    have hstep : (∃ j, (((c :: r).take j).drop 1).count '(' < ((c :: r).take j).count ')')
        ↔ ∃ j, (r.take j).count '(' < (c :: r.take j).count ')' := by
      constructor
      · rintro ⟨j, hj⟩
        cases j with
        | zero => simp at hj
        | succ j => exact ⟨j, by simpa using hj⟩
      · rintro ⟨j, hj⟩
        exact ⟨j + 1, by simpa using hj⟩
    rw [hstep]
    rcases paren_cases c with rfl | rfl | ⟨h1, h2⟩
    · have hsc : scanned ('(' :: r) = r := by simp [scanned]
      rw [hsc, closeIndex_iff_count]
      simp only [count_close_cons_open, Nat.zero_add]
    · have hsc : scanned (')' :: r) = ')' :: r := by simp [scanned]
      rw [hsc]
      constructor
      · intro _; exact ⟨0, closeIndex_close_zero r⟩
      · intro _; exact ⟨0, by simp⟩
    · have hsc : scanned (c :: r) = c :: r := by simp [scanned, h1]
      rw [hsc, closeIndex_iff_count]
      simp only [count_close_cons_other h2, Nat.zero_add]
      constructor
      · rintro ⟨j, hj⟩
        refine ⟨j + 1, ?_⟩
        simp only [List.take_succ_cons]
        rw [count_open_cons_other h1, count_close_cons_other h2]
        exact hj
      · rintro ⟨j, hj⟩
        cases j with
        | zero => simp at hj
        | succ j =>
          simp only [List.take_succ_cons] at hj
          rw [count_open_cons_other h1, count_close_cons_other h2] at hj
          exact ⟨j, hj⟩

/-- C15: the exact failure condition.  `tokenize s` succeeds if and only if
`s` has a prefix in which the `)` outnumber the `(`, a `(` at index 0 not
being counted; it throws the invalid-expression error if and only if there is
no such prefix; and such a prefix exists if and only if there is an index `i`
with `s[i] = ')'` such that the number of `)` in `s[0..i)` equals the number of
`(` in `s[1..i)`. -/
theorem tokenize_succeeds_iff (s : Str) :
    ((∃ out, tokenize s = .returned out)
        ↔ ∃ j, ((s.take j).drop 1).count '(' < (s.take j).count ')')
    ∧ (tokenize s = .thrown
        ↔ ¬ ∃ j, ((s.take j).drop 1).count '(' < (s.take j).count ')')
    ∧ ((∃ j, ((s.take j).drop 1).count '(' < (s.take j).count ')')
        ↔ ∃ i, s[i]? = some ')' ∧ (s.take i).count ')' = ((s.take i).drop 1).count '(') := by
  have hiff := hasUnmatchedClose_iff s
  unfold HasUnmatchedClose at hiff
  obtain ⟨hnone, hsome⟩ := tokenize_closeIndex s
  refine ⟨?_, ?_, ?_⟩
  · rw [hiff]
    constructor
    · rintro ⟨out, hout⟩
      cases hci : closeIndex 0 (scanned s) with
      | none => rw [hnone hci] at hout; cases hout
      | some k => exact ⟨k, rfl⟩
    · rintro ⟨k, hk⟩
      exact hsome k hk
  · rw [hiff]
    constructor
    · rintro hthrown ⟨k, hk⟩
      obtain ⟨out, hout⟩ := hsome k hk
      rw [hout] at hthrown
      cases hthrown
    · intro hno
      apply hnone
      cases hci : closeIndex 0 (scanned s) with
      | none => rfl
      | some k => exact absurd ⟨k, hci⟩ hno
  · constructor
    · intro hj
      obtain ⟨k, hk⟩ := hiff.1 hj
      cases s with
      | nil => simp [scanned, closeIndex] at hk
      | cons c r =>
        by_cases hc : c = '('
        · subst hc
          have hsc : scanned ('(' :: r) = r := by simp [scanned]
          rw [hsc] at hk
          obtain ⟨a1, a2, _, _⟩ := closeIndex_spec r 0 k hk
          refine ⟨k + 1, by simpa using a1, ?_⟩
          simp only [List.take_succ_cons, List.drop_succ_cons, List.drop_zero]
          rw [count_close_cons_open]
          omega
        · have hsc : scanned (c :: r) = c :: r := by simp [scanned, hc]
          rw [hsc] at hk
          obtain ⟨a1, a2, _, _⟩ := closeIndex_spec (c :: r) 0 k hk
          refine ⟨k, a1, ?_⟩
          rw [a2, Nat.zero_add]
          cases k with
          | zero => simp
          | succ k =>
            simp only [List.take_succ_cons, List.drop_succ_cons, List.drop_zero]
            rw [count_open_cons_other hc]
    · rintro ⟨i, hi, hcount⟩
      refine ⟨i + 1, ?_⟩
      rw [List.take_succ, hi]
      simp only [Option.toList_some, List.count_append, List.count_singleton_self]
      cases i with
      | zero => simp
      | succ i =>
        cases s with
        | nil => simp at hi
        | cons c r =>
          simp only [List.take_succ_cons, List.cons_append, List.drop_succ_cons,
            List.drop_zero] at hcount ⊢
          rw [List.count_append, hcount]
          simp

/-- Instances of C15: `(a (b)` has no unmatched `)` and is rejected; `a b)`
has one and is accepted. -/
theorem tokenize_succeeds_iff_examples :
    tokenize "(a (b)".toList = .thrown
    ∧ tokenize "a b)".toList
        = .returned "LINK Expression 2 NODE Symbol a NODE Symbol b".toList := by
  constructor <;> decide

/-! ## The loop depends only on the rest of the input -/

theorem split_of_drop {e : Str} {c : Nat} {ch : Char} {r : Str} (h : e.drop c = ch :: r) :
    e = e.take c ++ ch :: r ∧ c = (e.take c).length := by
  have hlt : c < e.length := by
    by_contra hge
    rw [List.drop_eq_nil_of_le (by omega)] at h
    cases h
  refine ⟨?_, ?_⟩
  · rw [← h, List.take_append_drop]
  · rw [List.length_take]; omega

theorem drop_succ_of_drop {e : Str} {c : Nat} {ch : Char} {r : Str} (h : e.drop c = ch :: r)
    (k : Nat) : e.drop (c + 1 + k) = r.drop k := by
  have : e.drop (c + 1 + k) = (e.drop c).drop (1 + k) := by
    rw [List.drop_drop]; congr 1; omega
  rw [this, h, Nat.add_comm 1 k, List.drop_succ_cons]

theorem reindex_shift {c1 c2 a1 a2 : Nat} (res : Outcome (Nat × Str))
    (hge : ∀ b o, res = .returned (b, o) → a1 ≤ b) (h1 : c1 ≤ a1) (h : a2 + c1 = a1 + c2) :
    reindex a1 a2 res = reindex c1 c2 res := by
  cases res with
  | returned v =>
    obtain ⟨b, o⟩ := v
    have := hge b o rfl
    simp only [reindex]
    congr 2
    omega
  | thrown => rfl
  | out_of_fuel => rfl

theorem loop_suffix :
    ∀ (fuel : Nat) (e1 e2 : Str) (start1 start2 c1 c2 : Nat) (header : Str) (n : Nat)
      (output : Str),
      e1.drop c1 = e2.drop c2 → start1 ≤ c1 → start2 ≤ c2 →
      ((e1.drop c1).head? = some '(' → (start1 < c1 ↔ start2 < c2)) →
      tokenize_loop e2 fuel start2 c2 header n output
        = reindex c1 c2 (tokenize_loop e1 fuel start1 c1 header n output) := by
  intro fuel
  induction fuel with
  | zero => intros; rfl
  | succ fuel ih =>
    intro e1 e2 start1 start2 c1 c2 header n output hdrop hs1 hs2 hhead
    cases hd : e1.drop c1 with
    | nil =>
      have hd2 : e2.drop c2 = [] := by rw [← hdrop, hd]
      have h1 : e1.length ≤ c1 := List.drop_eq_nil_iff.1 hd
      have h2 : e2.length ≤ c2 := List.drop_eq_nil_iff.1 hd2
      rw [loop_end h1, loop_end h2]
      rfl
    | cons ch r =>
      have hd2 : e2.drop c2 = ch :: r := by rw [← hdrop, hd]
      obtain ⟨he1, hc1⟩ := split_of_drop hd
      obtain ⟨he2, hc2⟩ := split_of_drop hd2
      have hnext : ∀ k, e1.drop (c1 + 1 + k) = e2.drop (c2 + 1 + k) := by
        intro k
        rw [drop_succ_of_drop hd, drop_succ_of_drop hd2]
      have hcont : ∀ (k : Nat) (hdr : Str) (m : Nat) (o : Str),
          tokenize_loop e2 fuel start2 (c2 + 1 + k) hdr m o
            = reindex c1 c2 (tokenize_loop e1 fuel start1 (c1 + 1 + k) hdr m o) := by
        intro k hdr m o
        rw [ih e1 e2 start1 start2 (c1 + 1 + k) (c2 + 1 + k) hdr m o (hnext k) (by omega)
          (by omega) (fun _ => ⟨fun _ => by omega, fun _ => by omega⟩)]
        exact reindex_shift _ (fun b o' hb => (loop_cursor e1 _ _ _ _ _ _ _ _ hb).1)
          (by omega) (by omega)
      rcases char_cases ch with rfl | rfl | hsp | ha
      · by_cases hst : start1 < c1
        · have hst2 : start2 < c2 := (hhead (by rw [hd]; rfl)).1 hst
          rw [loop_open_nested _ _ he1 hc1 fuel hst, loop_open_nested _ _ he2 hc2 fuel hst2]
          rw [ih e1 e2 c1 c2 c1 c2 "LINK Expression".toList 0 [] hdrop (le_refl _) (le_refl _)
            (fun _ => ⟨fun h => absurd h (by omega), fun h => absurd h (by omega)⟩)]
          cases hin : tokenize_loop e1 fuel c1 c1 "LINK Expression".toList 0 [] with
          | returned v =>
            obtain ⟨a, tok⟩ := v
            have hge := (loop_cursor e1 _ _ _ _ _ _ _ _ hin).1
            simp only [reindex]
            have := hcont (a - c1) header (n + 1) (output ++ (" ".toList ++ tok))
            have e1' : c1 + 1 + (a - c1) = a + 1 := by omega
            have e2' : c2 + 1 + (a - c1) = a - c1 + c2 + 1 := by omega
            rw [e1', e2'] at this
            exact this
          | thrown => rfl
          | out_of_fuel => rfl
        · have hst2 : ¬ start2 < c2 := fun h => hst ((hhead (by rw [hd]; rfl)).2 h)
          rw [loop_open_first _ _ he1 hc1 fuel (by omega),
            loop_open_first _ _ he2 hc2 fuel (by omega)]
          exact hcont 0 header n output
      · rw [loop_close _ _ he1 hc1, loop_close _ _ he2 hc2]
        simp [reindex]
      · rw [loop_space _ _ he1 hc1 hsp, loop_space _ _ he2 hc2 hsp]
        exact hcont 0 header n output
      · rw [loop_atom _ _ he1 hc1 ha, loop_atom _ _ he2 hc2 ha]
        split
        · exact hcont _ _ _ _
        · exact hcont _ _ _ _

/-- C16: the leading `(` of the outermost group is optional: for every string
`s` whose first character is not `(` (the empty string included),
`tokenize ("(" ++ s)` and `tokenize s` agree: both throw, or both return the
same output. -/
theorem leading_paren_optional (s : Str) (h : s.head? ≠ some '(') :
    tokenize ("(".toList ++ s) = tokenize s := by
  have hrun : _tokenize (2 * s.length + 3) s 0 = _tokenize (2 * s.length + 1) s 0 :=
    tokenize_loop_mono s _ _ _ _ _ _ _ _ rfl
      (loop_adequate s _ 0 0 _ 0 [] (le_refl _) (by omega) (by omega) (by omega)) (by omega)
  have hsuf := loop_suffix (2 * s.length + 3) s ('(' :: s) 0 0 0 1 "LINK Expression".toList 0 []
    (by simp) (le_refl _) (by omega) (fun hh => absurd (by simpa using hh) h)
  have hfirst : _tokenize (2 * s.length + 3 + 1) ('(' :: s) 0
      = tokenize_loop ('(' :: s) (2 * s.length + 3) 0 1 "LINK Expression".toList 0 [] := by
    unfold _tokenize
    exact loop_open_first [] s rfl rfl _ (le_refl _) _ _ _
  have hall : _tokenize (2 * s.length + 3 + 1) ('(' :: s) 0
      = reindex 0 1 (_tokenize (2 * s.length + 1) s 0) := by
    rw [hfirst, hsuf, ← hrun]
    rfl
  have hne : reindex 0 1 (_tokenize (2 * s.length + 1) s 0) ≠ .out_of_fuel := by
    have := loop_adequate s (2 * s.length + 1) 0 0 "LINK Expression".toList 0 []
      (le_refl _) (by omega) (by omega) (by omega)
    unfold _tokenize
    cases hr : tokenize_loop s (2 * s.length + 1) 0 0 "LINK Expression".toList 0 [] with
    | returned v => obtain ⟨a, o⟩ := v; simp [reindex]
    | thrown => simp [reindex]
    | out_of_fuel => exact absurd hr this
  have hfin := tokenize_of_run hall hne
  show tokenize ('(' :: s) = tokenize s
  unfold tokenize
  rw [hfin]
  cases _tokenize (2 * s.length + 1) s 0 with
  | returned v => obtain ⟨a, o⟩ := v; rfl
  | thrown => rfl
  | out_of_fuel => rfl

/-- Witness for C16: `a b)` tokenizes like `(a b)`, and both the empty string
and `(` are rejected. -/
theorem leading_paren_optional_witness :
    tokenize ("(".toList ++ "a b)".toList) = tokenize "a b)".toList
    ∧ tokenize "a b)".toList
        = .returned "LINK Expression 2 NODE Symbol a NODE Symbol b".toList
    ∧ tokenize ("(".toList ++ []) = tokenize [] ∧ tokenize [] = .thrown :=
  ⟨leading_paren_optional "a b)".toList (by decide), by decide,
    leading_paren_optional [] (by decide), by decide⟩

/-! ## The two implementations agree -/

theorem parse_query_loop_eq (q : Str) :
    ∀ (fuel start cursor : Nat) (header : Str) (n : Nat) (outT outP : Str),
      ' ' :: outP = outT ++ " ".toList →
      parse_query_loop q fuel start cursor (header ++ " ".toList) n outP
        = withSpace (tokenize_loop q fuel start cursor header n outT) := by
  intro fuel
  induction fuel with
  | zero => intros; rfl
  | succ fuel ih =>
    intro start cursor header n outT outP hinv
    rw [parse_query_loop, tokenize_loop]
    by_cases hc : cursor < q.length
    · simp only [hc, if_true]
      by_cases h1 : charAt q cursor = '('
      · simp only [h1, if_true]
        by_cases h2 : cursor > start
        · simp only [h2, if_true]
          have hin := ih cursor cursor "LINK Expression".toList 0 [] [] rfl
          have hhdr : "LINK Expression".toList ++ " ".toList = "LINK Expression ".toList := rfl
          rw [hhdr] at hin
          rw [hin]
          cases tokenize_loop q fuel cursor cursor "LINK Expression".toList 0 [] with
          | returned v =>
            obtain ⟨c', tok⟩ := v
            simp only [withSpace]
            apply ih
            rw [← List.cons_append, hinv]
            simp
          | thrown => rfl
          | out_of_fuel => rfl
        · simp only [h2, if_false]
          exact ih _ _ _ _ _ _ hinv
      · simp only [h1, if_false]
        by_cases h3 : charAt q cursor = ')'
        · simp only [h3, if_true, withSpace]
          congr 2
          simp only [List.append_assoc]
          congr 2
          rw [← hinv]
          rfl
        · simp only [h3, if_false]
          by_cases h4 : isspace (charAt q cursor) = true
          · simp only [h4, if_true]
            exact ih _ _ _ _ _ _ hinv
          · simp only [h4]
            by_cases h5 : charAt (scan_atom q (q.length - cursor) cursor []).2 0 = '$'
            · simp only [h5, if_true]
              have hhdr : "LINK_TEMPLATE Expression ".toList
                  = "LINK_TEMPLATE Expression".toList ++ " ".toList := rfl
              rw [hhdr]
              apply ih
              rw [← List.cons_append, hinv]
              simp
            · simp only [h5, if_false]
              apply ih
              rw [← List.cons_append, hinv]
              simp
    · simp only [hc, if_false]
      rfl

theorem rdropWhile_space_append (out : Str) :
    trim_trailing_spaces (out ++ " ".toList) = trim_trailing_spaces out := by
  unfold trim_trailing_spaces
  exact List.rdropWhile_concat_pos _ _ _ (by decide)

/-- C12: the two implementations agree on every input: `parse_query` throws
if and only if `tokenize` throws, `parse_query` returns the output of
`tokenize` followed by exactly one space whenever `tokenize` returns, nothing
else is ever returned by `parse_query`, and the two outputs are equal after
the trimming of trailing spaces that the test applies. -/
theorem parse_query_is_tokenize_with_space (q : Str) :
    (parse_query q = .thrown ↔ tokenize q = .thrown)
    ∧ (∀ out, tokenize q = .returned out → parse_query q = .returned (out ++ " ".toList))
    ∧ (∀ out', parse_query q = .returned out' →
        ∃ out, tokenize q = .returned out ∧ out' = out ++ " ".toList
          ∧ trim_trailing_spaces out' = trim_trailing_spaces out) := by
  have hsim := parse_query_loop_eq q (2 * q.length + 1) 0 0 "LINK Expression".toList 0 [] [] rfl
  have hhdr : "LINK Expression".toList ++ " ".toList = "LINK Expression ".toList := rfl
  rw [hhdr] at hsim
  unfold parse_query tokenize _parse_query _tokenize
  rw [hsim]
  cases tokenize_loop q (2 * q.length + 1) 0 0 "LINK Expression".toList 0 [] with
  | returned v =>
    obtain ⟨c, o⟩ := v
    simp only [withSpace]
    refine ⟨by simp, ?_, ?_⟩
    · intro out h
      cases h
      rfl
    · intro out' h
      cases h
      exact ⟨o, rfl, rfl, rdropWhile_space_append o⟩
  | thrown =>
    simp only [withSpace]
    refine ⟨by simp, ?_, ?_⟩
    · intro out h; cases h
    · intro out' h; cases h
  | out_of_fuel =>
    simp only [withSpace]
    refine ⟨by simp, ?_, ?_⟩
    · intro out h; cases h
    · intro out' h; cases h

/-- The demo input of `main` in metta_tokenizer.cpp, and Scenario 4. -/
theorem parse_query_examples :
    parse_query "(Similarity (Concept \"human\") $v1)".toList
      = .returned "LINK_TEMPLATE Expression 3 NODE Symbol Similarity LINK Expression 2 NODE Symbol Concept NODE Symbol \"human\" VARIABLE v1 ".toList
    ∧ parse_query "(Similarity (Concept \"human\") $v1".toList = .thrown := by
  constructor <;> decide

/-! ## Whitespace between tokens -/

theorem takeWhile_all {l : Str} (h : l.takeWhile isAtomChar = l) :
    ∀ c ∈ l, isAtomChar c = true := by
  intro c hc
  rw [← h] at hc
  exact List.mem_takeWhile_imp hc

theorem atom_run_across (ch : Char) (a3 b : Str) (w : Char) (pre : Str)
    (ha : isAtomChar ch = true) (hw : isAtomChar w = false)
    (hns : NoSplit (pre ++ ch :: a3) b) :
    (a3 ++ w :: b).takeWhile isAtomChar = (a3 ++ b).takeWhile isAtomChar
      ∧ ((a3 ++ b).takeWhile isAtomChar).length ≤ a3.length := by
  rcases takeWhile_append_or isAtomChar a3 b with hall | hb
  · have hallc := takeWhile_all hall
    have htb : b.takeWhile isAtomChar = [] := by
      rcases hns with rfl | ⟨d, hd, hdd⟩ | ⟨d, hd, hdd⟩
      · rfl
      · exfalso
        have hlast : (pre ++ ch :: a3).getLast? = (ch :: a3).getLast? := by
          rw [List.getLast?_append_of_ne_nil _ (by simp)]
        rw [hlast] at hd
        have hmem : d ∈ ch :: a3 := List.mem_of_getLast?_eq_some hd
        have : isAtomChar d = true := by
          rcases List.mem_cons.1 hmem with rfl | hm
          · exact ha
          · exact hallc d hm
        rw [this] at hdd
        cases hdd
      · cases b with
        | nil => rfl
        | cons d' b' =>
          simp only [List.head?_cons, Option.some.injEq] at hd
          subst hd
          rw [List.takeWhile_cons_of_neg (by simp [hdd])]
    rw [List.takeWhile_append_of_pos hallc, List.takeWhile_append_of_pos hallc, htb,
      List.takeWhile_cons_of_neg (by simp [hw])]
    simp
  · rcases takeWhile_append_or isAtomChar a3 (w :: b) with hall | hwb
    · have hallc := takeWhile_all hall
      rw [List.takeWhile_append_of_pos hallc, List.takeWhile_cons_of_neg (by simp [hw])]
      rw [hb, hall]
      simp
    · rw [hwb, hb]
      exact ⟨rfl, (List.takeWhile_sublist _).length_le⟩

theorem drop_insert (x : Str) (w : Char) (b : Str) (k : Nat) :
    (x ++ b).drop (x.length + k) = (x ++ w :: b).drop (x.length + k + 1) := by
  rw [List.drop_append, Nat.add_assoc, List.drop_append, List.drop_succ_cons]

theorem loop_insert (x b : Str) (w : Char) (hw : isspace w = true) (hns : NoSplit x b) :
    ∀ (fuel start c : Nat) (header : Str) (n : Nat) (output : Str),
      c ≤ x.length → start ≤ c → (c = x.length → start < c) →
      tokenize_loop (x ++ b) fuel start c header n output ≠ .out_of_fuel →
      tokenize_loop (x ++ w :: b) (fuel + 1) start c header n output
        = bump x.length (tokenize_loop (x ++ b) fuel start c header n output) := by
  intro fuel
  induction fuel with
  | zero =>
    intro start c header n output _ _ _ hne
    exact absurd rfl hne
  | succ fuel ih =>
    intro start c header n output hcx hsc hend hne
    by_cases hlt : c < x.length
    · obtain ⟨xp, ch, a3, hx, hcp⟩ := split_at_cursor hlt
      have he : x ++ b = xp ++ ch :: (a3 ++ b) := by simp [hx]
      have he' : x ++ w :: b = xp ++ ch :: (a3 ++ w :: b) := by simp [hx]
      have hxl : x.length = c + 1 + a3.length := by rw [hx, hcp]; simp; omega
      rcases char_cases ch with rfl | rfl | hsp | ha
      · by_cases hst : start < c
        · rw [loop_open_nested _ _ he hcp fuel hst] at hne ⊢
          rw [loop_open_nested _ _ he' hcp (fuel + 1) hst]
          cases hin : tokenize_loop (x ++ b) fuel c c "LINK Expression".toList 0 [] with
          | returned v =>
            obtain ⟨a, tok⟩ := v
            rw [hin] at hne
            simp only [] at hne ⊢
            have hinb := ih c c "LINK Expression".toList 0 [] hcx (le_refl _)
              (fun h => absurd h (by omega)) (by rw [hin]; simp)
            rw [hin] at hinb
            rw [hinb]
            simp only [bump]
            have hac := (loop_cursor _ _ _ _ _ _ _ _ _ hin).1
            by_cases hax : a < x.length
            · rw [if_pos hax]
              exact ih start (a + 1) header (n + 1) _ (by omega) (by omega)
                (fun _ => by omega) hne
            · rw [if_neg hax]
              have hsuf := loop_suffix fuel (x ++ b) (x ++ w :: b) start start (a + 1)
                (a + 1 + 1) header (n + 1) (output ++ (" ".toList ++ tok))
                (by
                  have h := drop_insert x w b (a + 1 - x.length)
                  rw [show x.length + (a + 1 - x.length) = a + 1 by omega] at h
                  exact h)
                (by omega) (by omega) (fun _ => ⟨fun _ => by omega, fun _ => by omega⟩)
              have hne2 : reindex (a + 1) (a + 1 + 1)
                  (tokenize_loop (x ++ b) fuel start (a + 1) header (n + 1)
                    (output ++ (" ".toList ++ tok))) ≠ .out_of_fuel := by
                cases hr : tokenize_loop (x ++ b) fuel start (a + 1) header (n + 1)
                    (output ++ (" ".toList ++ tok)) with
                | returned v => obtain ⟨p, q⟩ := v; simp [reindex]
                | thrown => simp [reindex]
                | out_of_fuel => exact absurd hr hne
              rw [tokenize_loop_mono _ _ (fuel + 1) _ _ _ _ _ _ hsuf hne2 (by omega)]
              cases hr : tokenize_loop (x ++ b) fuel start (a + 1) header (n + 1)
                  (output ++ (" ".toList ++ tok)) with
              | returned v =>
                obtain ⟨p, q⟩ := v
                have hp := (loop_cursor _ _ _ _ _ _ _ _ _ hr).1
                simp only [reindex, bump]
                rw [if_neg (by omega)]
                congr 2
                omega
              | thrown => rfl
              | out_of_fuel => rfl
          | thrown =>
            have hinb := ih c c "LINK Expression".toList 0 [] hcx (le_refl _)
              (fun h => absurd h (by omega)) (by rw [hin]; simp)
            rw [hin] at hinb
            rw [hinb]
            rfl
          | out_of_fuel =>
            rw [hin] at hne
            exact absurd rfl hne
        · rw [loop_open_first _ _ he hcp fuel (by omega)] at hne ⊢
          rw [loop_open_first _ _ he' hcp (fuel + 1) (by omega)]
          exact ih start (c + 1) header n output (by omega) (by omega) (fun _ => by omega) hne
      · rw [loop_close _ _ he hcp, loop_close _ _ he' hcp]
        simp only [bump]
        rw [if_pos hlt]
      · rw [loop_space _ _ he hcp hsp] at hne ⊢
        rw [loop_space _ _ he' hcp hsp]
        exact ih start (c + 1) header n output (by omega) (by omega) (fun _ => by omega) hne
      · obtain ⟨htw, hlen⟩ := atom_run_across ch a3 b w xp ha (isAtomChar_of_isspace hw)
          (by rw [← hx]; exact hns)
        rw [loop_atom _ _ he hcp ha] at hne ⊢
        rw [loop_atom _ _ he' hcp ha, htw]
        split
        · rw [if_pos (by assumption)] at hne
          exact ih start _ _ _ _ (by omega) (by omega) (fun _ => by omega) hne
        · rw [if_neg (by assumption)] at hne
          exact ih start _ _ _ _ (by omega) (by omega) (fun _ => by omega) hne
    · have hceq : c = x.length := by omega
      have hst : start < c := hend hceq
      rw [loop_space x b rfl hceq hw (fuel + 1)]
      have hsuf := loop_suffix (fuel + 1) (x ++ b) (x ++ w :: b) start start c (c + 1)
        header n output
        (by
          have h := drop_insert x w b 0
          rw [Nat.add_zero, ← hceq] at h
          exact h)
        (by omega) (by omega) (fun _ => ⟨fun _ => by omega, fun _ => by omega⟩)
      rw [hsuf]
      cases hr : tokenize_loop (x ++ b) (fuel + 1) start c header n output with
      | returned v =>
        obtain ⟨p, q⟩ := v
        have hp := (loop_cursor _ _ _ _ _ _ _ _ _ hr).1
        simp only [reindex, bump]
        rw [if_neg (by omega)]
        congr 2
        omega
      | thrown => rfl
      | out_of_fuel => rfl
theorem charAt_eq_of_getElem? {s : Str} {i : Nat} {d : Char} (h : s[i]? = some d) :
    charAt s i = d := by
  simp [charAt, List.getD, h]

theorem noSplit_of_index (s : Str) (i : Nat) (hi1 : 1 ≤ i) (hi2 : i ≤ s.length)
    (hns : i = s.length ∨ isAtomChar (charAt s (i - 1)) = false
      ∨ isAtomChar (charAt s i) = false) :
    NoSplit (s.take i) (s.drop i) := by
  by_cases hend : i = s.length
  · left
    rw [hend, List.drop_length]
  · have hlt : i < s.length := by omega
    rcases hns with h | h | h
    · exact absurd h hend
    · right; left
      have hget : s[i - 1]? = some s[i - 1] := List.getElem?_eq_getElem (by omega)
      refine ⟨s[i - 1], ?_, ?_⟩
      · rw [List.getLast?_eq_getElem?, List.length_take, Nat.min_eq_left hi2,
          List.getElem?_take_of_lt (by omega), hget]
      · rw [charAt_eq_of_getElem? hget] at h
        exact h
    · right; right
      have hget : s[i]? = some s[i] := List.getElem?_eq_getElem hlt
      refine ⟨s[i], ?_, ?_⟩
      · rw [List.head?_drop, hget]
      · rw [charAt_eq_of_getElem? hget] at h
        exact h

/-- C13: whitespace only delimits atoms.  For every input `s`, whitespace
character `w` and index `i` with `1 ≤ i ≤ |s|` at which the insertion does not
split an atom (`i = |s|`, or `s[i-1]` is whitespace or a parenthesis, or `s[i]`
is), `tokenize` of `s` with `w` inserted at `i` agrees with `tokenize s`: both
throw, or both return the same output.  In particular `(a(b)c)`, `(a (b) c)`
and `( a\t(b)\n c )` give the same output. -/
theorem whitespace_insertion (s : Str) (w : Char) (i : Nat) (hw : isspace w = true)
    (hi1 : 1 ≤ i) (hi2 : i ≤ s.length)
    (hns : i = s.length ∨ isAtomChar (charAt s (i - 1)) = false
      ∨ isAtomChar (charAt s i) = false) :
    tokenize (s.take i ++ w :: s.drop i) = tokenize s
    ∧ tokenize "(a(b)c)".toList = tokenize "(a (b) c)".toList
    ∧ tokenize "(a (b) c)".toList = tokenize "( a\t(b)\n c )".toList
    ∧ tokenize "(a(b)c)".toList = .returned
        "LINK Expression 3 NODE Symbol a LINK Expression 1 NODE Symbol b NODE Symbol c".toList := by
  refine ⟨?_, by decide, by decide, by decide⟩
  have hsplit := noSplit_of_index s i hi1 hi2 hns
  have hxl : (s.take i).length = i := by rw [List.length_take]; omega
  have hs : s.take i ++ s.drop i = s := List.take_append_drop i s
  have had := loop_adequate s (2 * s.length + 1) 0 0 "LINK Expression".toList 0 []
    (le_refl _) (by omega) (by omega) (by omega)
  have hins := loop_insert (s.take i) (s.drop i) w hw hsplit (2 * s.length + 1) 0 0
    "LINK Expression".toList 0 [] (by omega) (le_refl _) (fun h => by omega)
    (by rw [hs]; exact had)
  rw [hs, hxl] at hins
  have hne : bump i (tokenize_loop s (2 * s.length + 1) 0 0 "LINK Expression".toList 0 [])
      ≠ .out_of_fuel := by
    cases hr : tokenize_loop s (2 * s.length + 1) 0 0 "LINK Expression".toList 0 [] with
    | returned v => obtain ⟨p, q⟩ := v; simp [bump]
    | thrown => simp [bump]
    | out_of_fuel => exact absurd hr had
  have hfin := tokenize_of_run hins hne
  unfold tokenize
  rw [hfin]
  unfold _tokenize
  cases tokenize_loop s (2 * s.length + 1) 0 0 "LINK Expression".toList 0 [] with
  | returned v => obtain ⟨p, q⟩ := v; rfl
  | thrown => rfl
  | out_of_fuel => rfl

/-- Witness for C13: a space inserted between `a` and `(b)` in `(a(b)c)`. -/
theorem whitespace_insertion_witness :
    tokenize ("(a(b)c)".toList.take 2 ++ ' ' :: "(a(b)c)".toList.drop 2)
        = tokenize "(a(b)c)".toList
    ∧ tokenize "(a(b)c)".toList = tokenize "(a (b) c)".toList
    ∧ tokenize "(a (b) c)".toList = tokenize "( a\t(b)\n c )".toList
    ∧ tokenize "(a(b)c)".toList = .returned
        "LINK Expression 3 NODE Symbol a LINK Expression 1 NODE Symbol b NODE Symbol c".toList :=
  whitespace_insertion "(a(b)c)".toList ' ' 2 (by decide) (by decide) (by decide) (by decide)

/-! ## The token stream determines the tree -/

theorem digitChar_value : ∀ k, k < 10 → (Nat.digitChar k).toNat - 48 = k := by
  decide

theorem foldl_toDigitsCore : ∀ (fuel n : Nat) (ds : List Char), n < fuel →
    (Nat.toDigitsCore 10 fuel n ds).foldl (fun acc c => acc * 10 + (c.toNat - 48)) 0
      = ds.foldl (fun acc c => acc * 10 + (c.toNat - 48)) n := by
  intro fuel
  induction fuel with
  | zero => intro n ds h; omega
  | succ fuel ih =>
    intro n ds h
    rw [Nat.toDigitsCore]
    split
    · rename_i h0
      have hn : n < 10 := by
        by_contra hge
        have : 1 ≤ n / 10 := (Nat.le_div_iff_mul_le (by decide)).2 (by omega)
        omega
      simp only [List.foldl_cons, Nat.zero_mul, Nat.zero_add]
      rw [Nat.mod_eq_of_lt hn, digitChar_value n hn]
    · rename_i h0
      have hlt : n / 10 < fuel := by
        have : n / 10 < n := Nat.div_lt_self (by
          by_contra hz
          have : n = 0 := by omega
          subst this
          simp at h0) (by decide)
        omega
      rw [ih (n / 10) _ hlt]
      simp only [List.foldl_cons]
      rw [digitChar_value _ (Nat.mod_lt _ (by decide))]
      have : n / 10 * 10 + n % 10 = n := by omega
      rw [this]

theorem fromDigits_to_string (n : Nat) : fromDigits (to_string n) = n := by
  unfold fromDigits to_string Nat.toDigits
  rw [foldl_toDigitsCore _ _ _ (Nat.lt_succ_self n)]
  rfl

theorem word_split : ∀ (d1 d2 x1 x2 : Str),
    (∀ c ∈ d1, c ≠ ' ') → (∀ c ∈ d2, c ≠ ' ') → Delimited x1 → Delimited x2 →
    d1 ++ x1 = d2 ++ x2 → d1 = d2 ∧ x1 = x2 := by
  intro d1
  induction d1 with
  | nil =>
    intro d2 x1 x2 _ h2 hx1 _ h
    cases d2 with
    | nil => exact ⟨rfl, by simpa using h⟩
    | cons c d2 =>
      exfalso
      simp only [List.nil_append, List.cons_append] at h
      rcases hx1 with hx | hx
      · rw [hx] at h; cases h
      · rw [h] at hx
        simp only [List.head?_cons, Option.some.injEq] at hx
        exact h2 c (List.mem_cons_self _ _) hx
  | cons c d1 ih =>
    intro d2 x1 x2 h1 h2 hx1 hx2 h
    cases d2 with
    | nil =>
      exfalso
      simp only [List.nil_append, List.cons_append] at h
      rcases hx2 with hx | hx
      · rw [hx] at h; cases h
      · rw [← h] at hx
        simp only [List.head?_cons, Option.some.injEq] at hx
        exact h1 c (List.mem_cons_self _ _) hx
    | cons c' d2 =>
      simp only [List.cons_append, List.cons.injEq] at h
      obtain ⟨rfl, h⟩ := h
      obtain ⟨hd, hx⟩ := ih d2 x1 x2 (fun y hy => h1 y (List.mem_cons_of_mem _ hy))
        (fun y hy => h2 y (List.mem_cons_of_mem _ hy)) hx1 hx2 h
      exact ⟨by rw [hd], hx⟩

theorem Delimited_children_append (b : Body) {post : Str} (hp : Delimited post) :
    Delimited (b.children ++ post) := by
  rcases Body.children_head b with h | h
  · rw [h]; simpa using hp
  · right
    cases hc : b.children with
    | nil => rw [hc] at h; cases h
    | cons c cs => rw [hc] at h; simpa using h

theorem to_string_no_space (n : Nat) : ∀ c ∈ to_string n, c ≠ ' ' :=
  fun c hc => isDigit_ne_space (to_string_isDigit n c hc)

theorem headerWord_no_space (b : Body) : ∀ c ∈ b.headerWord, c ≠ ' ' := by
  unfold Body.headerWord
  split <;> decide

theorem serialize_inj_of_children (b1 : Body)
    (hch : ∀ (b2 : Body) (post1 post2 : Str), b2.wellFormed = true →
      Delimited post1 → Delimited post2 → b1.arity = b2.arity →
      b1.children ++ post1 = b2.children ++ post2 → b1.strip = b2.strip ∧ post1 = post2)
    (b2 : Body) (post1 post2 : Str) (hw2 : b2.wellFormed = true)
    (hp1 : Delimited post1) (hp2 : Delimited post2)
    (h : b1.serialize ++ post1 = b2.serialize ++ post2) :
    b1.strip = b2.strip ∧ post1 = post2 := by
  simp only [Body.serialize, List.append_assoc] at h
  obtain ⟨_, h⟩ := word_split _ _ _ _ (headerWord_no_space b1) (headerWord_no_space b2)
    (by right; rfl) (by right; rfl) h
  have h' := List.append_cancel_left h
  obtain ⟨hd, hx⟩ := word_split _ _ _ _ (to_string_no_space _) (to_string_no_space _)
    (Delimited_children_append b1 hp1) (Delimited_children_append b2 hp2) h'
  have har : b1.arity = b2.arity := by
    have := congrArg fromDigits hd
    rwa [fromDigits_to_string, fromDigits_to_string] at this
  exact hch b2 post1 post2 hw2 hp1 hp2 har hx

theorem atom_no_space {t : Str} (h : ∀ c ∈ t, isAtomChar c = true) : ∀ c ∈ t, c ≠ ' ' :=
  fun c hc => isAtomChar_ne_space (h c hc)

theorem children_inj (b1 : Body) :
    b1.wellFormed = true → ∀ (b2 : Body) (post1 post2 : Str), b2.wellFormed = true →
      Delimited post1 → Delimited post2 → b1.arity = b2.arity →
      b1.children ++ post1 = b2.children ++ post2 → b1.strip = b2.strip ∧ post1 = post2 := by
  induction b1 with
  | close ws =>
    intro _ b2 post1 post2 _ _ _ har h
    cases b2 with
    | close ws2 => exact ⟨rfl, by simpa [Body.children] using h⟩
    | atom ws2 t2 r2 => simp [Body.arity] at har
    | group ws2 i2 r2 => simp [Body.arity] at har
  | atom ws t r ih =>
    intro hw1 b2 post1 post2 hw2 hp1 hp2 har h
    simp only [Body.wellFormed, Bool.and_eq_true, List.all_eq_true] at hw1
    obtain ⟨⟨⟨⟨_, hne1⟩, hat1⟩, _⟩, hwr1⟩ := hw1
    cases b2 with
    | close ws2 => simp [Body.arity] at har
    | atom ws2 t2 r2 =>
      simp only [Body.wellFormed, Bool.and_eq_true, List.all_eq_true] at hw2
      obtain ⟨⟨⟨⟨_, hne2⟩, hat2⟩, _⟩, hwr2⟩ := hw2
      have har' : r.arity = r2.arity := by simpa [Body.arity] using har
      simp only [Body.children, List.append_assoc] at h
      have hdrop : ∀ (u : Str), (∀ c ∈ u, isAtomChar c = true) →
          ∀ c ∈ u.drop 1, c ≠ ' ' :=
        fun u hu c hc => atom_no_space hu c (List.mem_of_mem_drop hc)
      by_cases hv1 : t.head? = some '$'
      · by_cases hv2 : t2.head? = some '$'
        · rw [if_pos hv1, if_pos hv2] at h
          simp only [List.append_assoc] at h
          have h' := List.append_cancel_left h
          obtain ⟨hd, hx⟩ := word_split _ _ _ _ (hdrop t hat1) (hdrop t2 hat2)
            (Delimited_children_append r hp1) (Delimited_children_append r2 hp2) h'
          obtain ⟨hs, hp⟩ := ih hwr1 r2 post1 post2 hwr2 hp1 hp2 har' hx
          have ht : t = t2 := by
            cases t with
            | nil => simp at hv1
            | cons a t' =>
              cases t2 with
              | nil => simp at hv2
              | cons a2 t2' =>
                simp only [List.head?_cons, Option.some.injEq] at hv1 hv2
                simp only [List.drop_succ_cons, List.drop_zero] at hd
                rw [hv1, hv2, hd]
          exact ⟨by simp only [Body.strip]; rw [ht, hs], hp⟩
        · rw [if_pos hv1, if_neg hv2] at h
          have h1 : 'V' = 'N' := congrArg (fun l => l.getD 1 'x') h
          exact absurd h1 (by decide)
      · by_cases hv2 : t2.head? = some '$'
        · rw [if_neg hv1, if_pos hv2] at h
          have h1 : 'N' = 'V' := congrArg (fun l => l.getD 1 'x') h
          exact absurd h1 (by decide)
        · rw [if_neg hv1, if_neg hv2] at h
          simp only [List.append_assoc] at h
          have h' := List.append_cancel_left h
          obtain ⟨hd, hx⟩ := word_split _ _ _ _ (atom_no_space hat1) (atom_no_space hat2)
            (Delimited_children_append r hp1) (Delimited_children_append r2 hp2) h'
          obtain ⟨hs, hp⟩ := ih hwr1 r2 post1 post2 hwr2 hp1 hp2 har' hx
          exact ⟨by simp only [Body.strip]; rw [hd, hs], hp⟩
    | group ws2 i2 r2 =>
      exfalso
      simp only [Body.children, List.append_assoc] at h
      have hL : (i2.headerWord ++ (" Expression ".toList ++ (to_string i2.arity
          ++ (i2.children ++ (r2.children ++ post2))))).getD 0 'x' = 'L' := by
        unfold Body.headerWord
        split <;> rfl
      by_cases hv1 : t.head? = some '$'
      · rw [if_pos hv1] at h
        have h1 := congrArg (fun l => l.getD 1 'x') h
        have h2 : 'V' = (i2.headerWord ++ (" Expression ".toList ++ (to_string i2.arity
          ++ (i2.children ++ (r2.children ++ post2))))).getD 0 'x' := h1
        rw [hL] at h2
        exact absurd h2 (by decide)
      · rw [if_neg hv1] at h
        have h1 := congrArg (fun l => l.getD 1 'x') h
        have h2 : 'N' = (i2.headerWord ++ (" Expression ".toList ++ (to_string i2.arity
          ++ (i2.children ++ (r2.children ++ post2))))).getD 0 'x' := h1
        rw [hL] at h2
        exact absurd h2 (by decide)
  | group ws i r ihi ihr =>
    intro hw1 b2 post1 post2 hw2 hp1 hp2 har h
    simp only [Body.wellFormed, Bool.and_eq_true, List.all_eq_true] at hw1
    obtain ⟨⟨_, hwi1⟩, hwr1⟩ := hw1
    cases b2 with
    | close ws2 => simp [Body.arity] at har
    | atom ws2 t2 r2 =>
      exfalso
      simp only [Body.children, List.append_assoc] at h
      have hL : (i.headerWord ++ (" Expression ".toList ++ (to_string i.arity
          ++ (i.children ++ (r.children ++ post1))))).getD 0 'x' = 'L' := by
        unfold Body.headerWord
        split <;> rfl
      by_cases hv2 : t2.head? = some '$'
      · rw [if_pos hv2] at h
        have h1 := congrArg (fun l => l.getD 1 'x') h
        have h2 : (i.headerWord ++ (" Expression ".toList ++ (to_string i.arity
          ++ (i.children ++ (r.children ++ post1))))).getD 0 'x' = 'V' := h1
        rw [hL] at h2
        exact absurd h2 (by decide)
      · rw [if_neg hv2] at h
        have h1 := congrArg (fun l => l.getD 1 'x') h
        have h2 : (i.headerWord ++ (" Expression ".toList ++ (to_string i.arity
          ++ (i.children ++ (r.children ++ post1))))).getD 0 'x' = 'N' := h1
        rw [hL] at h2
        exact absurd h2 (by decide)
    | group ws2 i2 r2 =>
      simp only [Body.wellFormed, Bool.and_eq_true, List.all_eq_true] at hw2
      obtain ⟨⟨_, hwi2⟩, hwr2⟩ := hw2
      have har' : r.arity = r2.arity := by simpa [Body.arity] using har
      simp only [Body.children, List.append_assoc] at h
      have h' := List.append_cancel_left h
      have hser : i.serialize ++ (r.children ++ post1)
          = i2.serialize ++ (r2.children ++ post2) := by
        simpa only [Body.serialize, List.append_assoc] using h'
      obtain ⟨hsi, hx⟩ := serialize_inj_of_children i (ihi hwi1) i2 _ _ hwi2
        (Delimited_children_append r hp1) (Delimited_children_append r2 hp2) hser
      obtain ⟨hsr, hp⟩ := ihr hwr1 r2 post1 post2 hwr2 hp1 hp2 har' hx
      exact ⟨by simp only [Body.strip]; rw [hsi, hsr], hp⟩

/-- C17: the token stream determines the expression tree.  If `tokenize`
returns the same output for two well-formed expressions, the two have the same
tree (same nesting, same children in the same order, same atom texts): they
are equal once their whitespace is erased. -/
theorem output_determines_tree (b1 b2 : Body) (hw1 : b1.wellFormed = true)
    (hw2 : b2.wellFormed = true) (out : Str)
    (h1 : tokenize b1.expression = .returned out)
    (h2 : tokenize b2.expression = .returned out) :
    b1.strip = b2.strip := by
  rw [tokenize_expression b1 hw1] at h1
  rw [tokenize_expression b2 hw2] at h2
  have hs : b1.serialize ++ [] = b2.serialize ++ [] := by
    rw [Outcome.returned.inj h1, Outcome.returned.inj h2]
  exact (serialize_inj_of_children b1 (children_inj b1 hw1) b2 [] [] hw2 (Or.inl rfl)
    (Or.inl rfl) hs).1

/-- Witness for C17: the test input written with other whitespace has the
same output and the same tree. -/
theorem output_determines_tree_witness :
    (Body.group "\t".toList (.atom [] "a".toList (.close " ".toList))
        (.atom "\n ".toList "$b".toList (.close []))).expression = "(\t(a )\n $b)".toList
    ∧ (Body.group [] (.atom " ".toList "a".toList (.close []))
        (.atom " ".toList "$b".toList (.close "  ".toList))).expression = "(( a) $b  )".toList
    ∧ (Body.group "\t".toList (.atom [] "a".toList (.close " ".toList))
        (.atom "\n ".toList "$b".toList (.close []))).strip
      = (Body.group [] (.atom " ".toList "a".toList (.close []))
        (.atom " ".toList "$b".toList (.close "  ".toList))).strip :=
  ⟨by decide, by decide,
    output_determines_tree _ _ (by decide) (by decide)
      "LINK_TEMPLATE Expression 2 LINK Expression 1 NODE Symbol a VARIABLE b".toList
      (by decide) (by decide)⟩

/-! ## Nesting depth -/

theorem nextWord_word (d x : Str) (hd : ∀ c ∈ d, c ≠ ' ') (hx : Delimited x) :
    nextWord (d ++ x) = (d, x.drop 1) := by
  have hp : ∀ c ∈ d, (c != ' ') = true := fun c hc => by simpa using hd c hc
  have htx : x.takeWhile (· != ' ') = [] ∧ x.dropWhile (· != ' ') = x := by
    rcases hx with rfl | h
    · exact ⟨rfl, rfl⟩
    · cases x with
      | nil => cases h
      | cons c x =>
        simp only [List.head?_cons, Option.some.injEq] at h
        subst h
        exact ⟨rfl, rfl⟩
  unfold nextWord
  rw [List.takeWhile_append_of_pos hp, List.dropWhile_append_of_pos hp, htx.1, htx.2]
  simp

theorem Body.nodes_le (b : Body) : b.nodes ≤ b.children.length + 1 := by
  induction b with
  | close ws => simp [Body.nodes, Body.children]
  | atom ws t r ih =>
    simp only [Body.nodes, Body.children, List.length_append]
    split <;> simp only [List.length_append] <;>
      (have : 1 ≤ (" VARIABLE ".toList).length := by decide) <;>
      (have : 1 ≤ (" NODE Symbol ".toList).length := by decide) <;> omega
  | group ws i r ihi ihr =>
    simp only [Body.nodes, Body.children, List.length_append]
    have h1 : 1 ≤ (" ".toList).length := by decide
    have h2 : 1 ≤ (" Expression ".toList).length := by decide
    omega

theorem maxDepthFrom_skip : ∀ (t : Str), (∀ c ∈ t, c ≠ '(' ∧ c ≠ ')') →
    ∀ (cur best : Nat) (l : Str), maxDepthFrom cur best (t ++ l) = maxDepthFrom cur best l := by
  intro t
  induction t with
  | nil => intros; rfl
  | cons c t ih =>
    intro ht cur best l
    obtain ⟨h1, h2⟩ := ht c (List.mem_cons_self _ _)
    rw [List.cons_append, maxDepthFrom, if_neg h1, if_neg h2]
    exact ih (fun x hx => ht x (List.mem_cons_of_mem _ hx)) cur best l

theorem maxDepthFrom_body (b : Body) :
    b.wellFormed = true → ∀ (cur best : Nat) (post : Str), cur + 1 ≤ best →
      maxDepthFrom (cur + 1) best (b.text ++ post)
        = maxDepthFrom cur (max best (cur + 1 + b.innerDepth)) post := by
  induction b with
  | close ws =>
    intro hwf cur best post hb
    simp only [Body.wellFormed, List.all_eq_true] at hwf
    simp only [Body.text, List.append_assoc, List.singleton_append, Body.innerDepth]
    rw [maxDepthFrom_skip ws (isspace_no_paren hwf), maxDepthFrom, if_neg (by decide),
      if_pos rfl]
    congr 1
    omega
  | atom ws t r ih =>
    intro hwf cur best post hb
    simp only [Body.wellFormed, Bool.and_eq_true, List.all_eq_true] at hwf
    obtain ⟨⟨⟨⟨hws, _⟩, hat⟩, _⟩, hwr⟩ := hwf
    have hnp : ∀ c ∈ ws ++ t, c ≠ '(' ∧ c ≠ ')' := by
      intro c hc
      rcases List.mem_append.1 hc with h | h
      · exact isspace_no_paren hws c h
      · exact ((isAtomChar_iff c).1 (hat c h)).2
    have htext : (Body.atom ws t r).text ++ post = (ws ++ t) ++ (r.text ++ post) := by
      simp [Body.text]
    rw [htext, maxDepthFrom_skip _ hnp, ih hwr cur best post hb]
    rfl
  | group ws i r ihi ihr =>
    intro hwf cur best post hb
    simp only [Body.wellFormed, Bool.and_eq_true, List.all_eq_true] at hwf
    obtain ⟨⟨hws, hwi⟩, hwr⟩ := hwf
    have htext : (Body.group ws i r).text ++ post
        = ws ++ ('(' :: (i.text ++ (r.text ++ post))) := by
      simp [Body.text]
    rw [htext, maxDepthFrom_skip _ (isspace_no_paren hws), maxDepthFrom, if_pos rfl,
      ihi hwi (cur + 1) _ (r.text ++ post) (by omega), ihr hwr cur _ post (by omega)]
    simp only [Body.innerDepth]
    congr 1
    omega

theorem parenDepth_expression (b : Body) (hwf : b.wellFormed = true) :
    parenDepth b.expression = b.innerDepth + 1 := by
  have h := maxDepthFrom_body b hwf 0 1 [] (by omega)
  simp only [List.append_nil] at h
  unfold parenDepth Body.expression
  rw [maxDepthFrom, if_pos rfl]
  simp only [Nat.zero_add, Nat.zero_max]
  rw [h, maxDepthFrom]
  omega
theorem nextWord_lit (word : Str) (y : Str) (hd : ∀ c ∈ word, c ≠ ' ') :
    nextWord (word ++ ' ' :: y) = (word, y) := by
  have := nextWord_word word (' ' :: y) hd (Or.inr rfl)
  simpa using this

theorem readChildren_zero (fuel : Nat) (s : Str) :
    readChildren (fuel + 1) 0 s = some (0, s) := by
  rw [readChildren]

theorem readChildren_node (fuel pending : Nat) (t x : Str) (ht : ∀ c ∈ t, c ≠ ' ')
    (hx : Delimited x) :
    readChildren (fuel + 1) (pending + 1)
        ("NODE".toList ++ ' ' :: ("Symbol".toList ++ ' ' :: (t ++ x)))
      = readChildren fuel pending (x.drop 1) := by
  rw [readChildren]
  simp only [nextWord_lit "NODE".toList _ (by decide),
    nextWord_lit "Symbol".toList _ (by decide), nextWord_word t x ht hx, if_true]

theorem readChildren_variable (fuel pending : Nat) (t x : Str) (ht : ∀ c ∈ t, c ≠ ' ')
    (hx : Delimited x) :
    readChildren (fuel + 1) (pending + 1) ("VARIABLE".toList ++ ' ' :: (t ++ x))
      = readChildren fuel pending (x.drop 1) := by
  rw [readChildren]
  have hne : ¬ ("VARIABLE".toList = "NODE".toList) := by decide
  simp only [nextWord_lit "VARIABLE".toList _ (by decide), nextWord_word t x ht hx, hne,
    if_false, if_true]

theorem readChildren_link (fuel pending : Nat) (word digits y : Str)
    (hword : word = "LINK".toList ∨ word = "LINK_TEMPLATE".toList)
    (hdig : ∀ c ∈ digits, c ≠ ' ') (hy : Delimited y) :
    readChildren (fuel + 1) (pending + 1)
        (word ++ ' ' :: ("Expression".toList ++ ' ' :: (digits ++ y)))
      = match readChildren fuel (fromDigits digits) (y.drop 1) with
        | some (d, s') =>
          match readChildren fuel pending s' with
          | some (d', s'') => some (max (d + 1) d', s'')
          | none => none
        | none => none := by
  have hws : ∀ c ∈ word, c ≠ ' ' := by
    rcases hword with rfl | rfl <;> decide
  have h1 : ¬ (word = "NODE".toList) := by
    rcases hword with rfl | rfl <;> decide
  have h2 : ¬ (word = "VARIABLE".toList) := by
    rcases hword with rfl | rfl <;> decide
  rw [readChildren]
  simp only [nextWord_lit word _ hws, nextWord_lit "Expression".toList _ (by decide),
    nextWord_word digits y hdig hy, h1, h2, hword, if_false, if_true]

theorem readChildren_children (b : Body) :
    b.wellFormed = true → ∀ (post : Str) (fuel : Nat), Delimited post → b.nodes ≤ fuel →
      readChildren fuel b.arity ((b.children ++ post).drop 1)
        = some (b.innerDepth, post.drop 1) := by
  induction b with
  | close ws =>
    intro _ post fuel _ hf
    obtain ⟨f, rfl⟩ : ∃ f, fuel = f + 1 := ⟨fuel - 1, by simp [Body.nodes] at hf; omega⟩
    simp only [Body.arity, Body.children, List.nil_append, Body.innerDepth]
    exact readChildren_zero f _
  | atom ws t r ih =>
    intro hwf post fuel hp hf
    simp only [Body.wellFormed, Bool.and_eq_true, List.all_eq_true] at hwf
    obtain ⟨⟨⟨⟨_, _⟩, hat⟩, _⟩, hwr⟩ := hwf
    simp only [Body.nodes] at hf
    obtain ⟨f, rfl⟩ : ∃ f, fuel = f + 1 := ⟨fuel - 1, by omega⟩
    have hx := Delimited_children_append r hp
    simp only [Body.arity, Body.children, Body.innerDepth]
    by_cases hv : t.head? = some '$'
    · rw [if_pos hv]
      have hs : (" VARIABLE ".toList ++ t.drop 1 ++ r.children ++ post).drop 1
          = "VARIABLE".toList ++ ' ' :: (t.drop 1 ++ (r.children ++ post)) := by
        simp only [List.append_assoc]
        rfl
      rw [hs, readChildren_variable f _ _ _
        (fun c hc => atom_no_space hat c (List.mem_of_mem_drop hc)) hx]
      exact ih hwr post f hp (by omega)
    · rw [if_neg hv]
      have hs : (" NODE Symbol ".toList ++ t ++ r.children ++ post).drop 1
          = "NODE".toList ++ ' ' :: ("Symbol".toList ++ ' ' :: (t ++ (r.children ++ post))) := by
        simp only [List.append_assoc]
        rfl
      rw [hs, readChildren_node f _ _ _ (atom_no_space hat) hx]
      exact ih hwr post f hp (by omega)
  | group ws i r ihi ihr =>
    intro hwf post fuel hp hf
    simp only [Body.wellFormed, Bool.and_eq_true, List.all_eq_true] at hwf
    obtain ⟨⟨_, hwi⟩, hwr⟩ := hwf
    simp only [Body.nodes] at hf
    obtain ⟨f, rfl⟩ : ∃ f, fuel = f + 1 := ⟨fuel - 1, by omega⟩
    have hx := Delimited_children_append r hp
    have hy := Delimited_children_append i hx
    simp only [Body.arity, Body.children, Body.innerDepth]
    have hs : (" ".toList ++ (i.headerWord ++ " Expression ".toList ++ to_string i.arity
          ++ i.children) ++ r.children ++ post).drop 1
        = i.headerWord ++ ' ' :: ("Expression".toList ++ ' ' :: (to_string i.arity
          ++ (i.children ++ (r.children ++ post)))) := by
      simp only [List.append_assoc]
      rfl
    have hword : i.headerWord = "LINK".toList ∨ i.headerWord = "LINK_TEMPLATE".toList := by
      unfold Body.headerWord
      split
      · exact Or.inr rfl
      · exact Or.inl rfl
    rw [hs, readChildren_link f _ _ _ _ hword (to_string_no_space _) hy,
      fromDigits_to_string, ihi hwi _ f hx (by omega)]
    simp only []
    rw [ihr hwr post f hp (by omega)]

/-- C11: for every well-formed input, the nesting depth of the `LINK` /
`LINK_TEMPLATE` headers in the output, read by the output grammar with each
header owning the next `<arity>` child token groups, equals the maximal
parenthesis nesting depth of the input. -/
theorem output_depth_is_input_depth (b : Body) (hwf : b.wellFormed = true) :
    ∃ out, tokenize b.expression = .returned out
      ∧ outputDepth out = some (parenDepth b.expression) := by
  refine ⟨b.serialize, tokenize_expression b hwf, ?_⟩
  have hB : (Body.group [] b (.close [])).wellFormed = true := by
    simp [Body.wellFormed, hwf]
  have h := readChildren_children (.group [] b (.close [])) hB [] (b.serialize.length + 2)
    (Or.inl rfl) (by
      have := Body.nodes_le b
      have h2 : 1 ≤ (" Expression ".toList).length := by decide
      simp only [Body.nodes, Body.serialize, List.length_append]
      omega)
  have hs : ((Body.group [] b (.close [])).children ++ []).drop 1 = b.serialize := by
    simp only [Body.children, Body.serialize, List.append_nil]
    rfl
  rw [hs] at h
  simp only [Body.arity, Body.innerDepth, List.drop_nil] at h
  unfold outputDepth
  rw [h, parenDepth_expression b hwf]
  simp

/-- Witness for C11: the test input has parenthesis depth 2 and its output
has header depth 2. -/
theorem output_depth_is_input_depth_witness :
    parenDepth scenario1.expression = 2
    ∧ outputDepth scenario1.serialize = some 2
    ∧ ∃ out, tokenize scenario1.expression = .returned out
      ∧ outputDepth out = some (parenDepth scenario1.expression) :=
  ⟨by decide, by decide, output_depth_is_input_depth scenario1 (by decide)⟩

/-- The reader takes words between single spaces, so it reads an empty
variable name and atoms spelled like keywords as the code wrote them. -/
theorem output_depth_examples :
    tokenize "($ (LINK (NODE 2)))".toList = .returned
        "LINK_TEMPLATE Expression 2 VARIABLE  LINK Expression 2 NODE Symbol LINK LINK Expression 2 NODE Symbol NODE NODE Symbol 2".toList
    ∧ outputDepth
        "LINK_TEMPLATE Expression 2 VARIABLE  LINK Expression 2 NODE Symbol LINK LINK Expression 2 NODE Symbol NODE NODE Symbol 2".toList
        = some 3
    ∧ parenDepth "($ (LINK (NODE 2)))".toList = 3 := by
  refine ⟨by decide, by decide, by decide⟩

end MettaTokenizer
